import Mathlib

/-!
# Verification of the `yahc` hash-consing library (unsync core)

Shallow embedding of `src/unsync/table.rs`, `src/unsync/mod.rs`, `src/lib.rs`
and `src/cache.rs`.

The library interns values of a client type `T` in a per-type table
(`InnerTable`): a `HashMap<T, Hc<T, I>>` from each canonical value to the one
stored owning handle, plus a pending-collection queue (`GcData.to_collect`,
a `Vec<Weak<T, I>>` used as a LIFO stack via `push`/`pop`).  An owning handle
`Hc` is a pair of an `Rc<T>` and a 64-bit `Id`; a `Weak` is the corresponding
`std::rc::Weak` plus the same `Id`.

## The state model

We model the run-time state of one table (and of the `Rc` allocations the
handles of that table point at) as:

* `St.map`       — the canonical `HashMap<T, Hc>`, as an association list of
                   `(value, id-of-stored-handle)` pairs (keys pairwise distinct
                   in reachable states);
* `St.heap`      — the set of live `Rc` allocations, each with its identifier,
                   the value stored in it and its current strong count.  An
                   allocation whose strong count reaches zero is freed, which
                   matches `std::rc::Weak::strong_count` returning `0` for a
                   dead weak;
* `St.toCollect` — the pending-collection queue; the list head is the top of
                   the `Vec` stack (`Vec::push` conses, `Vec::pop` takes the
                   head);
* `St.nextId`    — the identifier counter (see `allocate` below).

A value of the client type may embed owning handles to other interned values
(e.g. `Lang::Add(Hc<Lang>, Hc<Lang>)` in the repository's tests).  Since the
handles' `PartialEq`/`Hash` are identifier-based, a value is determined up to
structural equality by its non-handle data and the identifiers of its embedded
handles, so we represent embedded handles inside values by their identifiers
and parameterise the whole development by a function `ch : T → List Nat`
returning, in field order, the identifiers of the owning handles embedded in a
value (the handles that `drop`ping the value releases).

Recursion in the dynamics (the gc loop can grow its own queue, and freeing a
value drops its children, possibly freeing further allocations) is modelled
with an explicit fuel parameter; `none` means the modelled execution budget was
exceeded (or, where noted, that the source `panic!`s).  Every run the claims
are about completes within the supplied fuel, and all general theorems are
stated for completed runs, so the fuel is only a bounded-depth presentation of
the terminating source loops.
-/

namespace Yahc

/-- A live `Rc` allocation: its table identifier, the value it stores, and its
current strong count (`Rc::strong_count`). -/
structure Alloc (T : Type) where
  id : Nat
  val : T
  strong : Nat
deriving DecidableEq

/-- The state of one interning table together with the `Rc` allocations its
handles point at.  See the module docstring for the reading of each field. -/
structure St (T : Type) where
  map : List (T × Nat)
  heap : List (Alloc T)
  toCollect : List Nat
  nextId : Nat
deriving DecidableEq

variable {T : Type} [DecidableEq T]

/-- Find the live allocation with identifier `i`, if any. -/
def heapFind (h : List (Alloc T)) (i : Nat) : Option (Alloc T) :=
  h.find? (fun a => a.id == i)

/-- The strong count recorded in a heap for the allocation with identifier
`i`, or `0` if it has been freed. -/
def countIn (h : List (Alloc T)) (i : Nat) : Nat :=
  match heapFind h i with
  | some a => a.strong
  | none => 0

/-- `Rc::strong_count` as observed through a handle or weak with identifier
`i`: the strong count of the live allocation, or `0` if it has been freed
(matching `std::rc::Weak::strong_count`). -/
def strongCount (s : St T) (i : Nat) : Nat :=
  countIn s.heap i

/-- Increment the strong count of the allocation with identifier `i`
(cloning a handle / `Weak::upgrade`). -/
def heapInc : List (Alloc T) → Nat → List (Alloc T)
  | [], _ => []
  | a :: h, i => if a.id == i then { a with strong := a.strong + 1 } :: h else a :: heapInc h i

/-- Decrement the strong count of the allocation with identifier `i`. -/
def heapDec : List (Alloc T) → Nat → List (Alloc T)
  | [], _ => []
  | a :: h, i => if a.id == i then { a with strong := a.strong - 1 } :: h else a :: heapDec h i

/-- Free the allocation with identifier `i` (its strong count reached zero). -/
def removeAlloc : List (Alloc T) → Nat → List (Alloc T)
  | [], _ => []
  | a :: h, i => if a.id == i then h else a :: removeAlloc h i

/-- Decrement once for each identifier in `ws` (in order). -/
def decList (h : List (Alloc T)) (ws : List Nat) : List (Alloc T) :=
  ws.foldl heapDec h

/-- Increment once for each identifier in `ws` (in order); used when a value
containing embedded handles is `Clone`d, which clones each embedded handle. -/
def incList (h : List (Alloc T)) (ws : List Nat) : List (Alloc T) :=
  ws.foldl heapInc h

/-- `HashMap` lookup of the canonical map by structural equality of keys. -/
def mapFindKey (m : List (T × Nat)) (v : T) : Option (T × Nat) :=
  m.find? (fun p => decide (p.1 = v))

/-- `HashMap::remove`: remove the (unique, in reachable states) entry whose key
is structurally equal to `v`. -/
def mapRemove : List (T × Nat) → T → List (T × Nat)
  | [], _ => []
  | p :: m, v => if p.1 = v then m else p :: mapRemove m v

/-- `Vec::push` onto the pending-collection queue (`Table::add_to_gc`);
the list head is the top of the stack. -/
def enqueue (s : St T) (i : Nat) : St T :=
  { s with toCollect := i :: s.toCollect }

/-- `Table::len()`: the number of resident entries of the canonical map. -/
def lenT (s : St T) : Nat :=
  s.map.length

/-- Modelled from the spec: the identifier allocator.  The identifier counter
and `allocate()` are absent from the provided source (`InnerTable` has no
counter field, and the `Hc::new_unchecked(key.clone())` call in
`InnerTable::create` passes no identifier although `Hc::new_unchecked` in
`src/unsync/mod.rs` takes one), so allocation is modelled from the spec:
`allocate()` returns the next unused identifier, strictly greater than all
previously allocated identifiers of the table, and fails (a fatal overflow,
here `none`) only once the 64-bit identifier space is exhausted. -/
def allocate (next : Nat) : Option Nat :=
  if next < 2 ^ 64 then some next else none

section Ops

variable (ch : T → List Nat)

/-- `Hc::drop` (`src/unsync/mod.rs` lines 73–82) followed by the `Rc` drop of
the `data` field, for every identifier in the worklist in order.

For the head identifier `i`:
* if its allocation is already freed there is nothing to drop;
* `Drop for Hc`: if `Rc::strong_count(&self.data) == 2` — the table's stored
  copy plus this departing handle — and the thread is not panicking, the handle
  downgrades itself and pushes the resulting weak (same identifier) onto the
  pending-collection queue (`Table::add_to_gc`);
* then the `Rc` field is dropped: the strong count is decremented, and if it
  reaches zero the allocation is freed and the value's embedded child handles
  are dropped in field order (they are prepended to the worklist).

The strong-count-zero inner case is unreachable (a live handle keeps the count
positive) and is kept only so the function is total.  Fuel bounds the modelled
recursion depth; `none` means it was exhausted. -/
def dropManyF (pan : Bool) : Nat → List Nat → St T → Option (St T)
  | _, [], s => some s
  | 0, _ :: _, _ => none
  | fuel + 1, i :: rest, s =>
    match heapFind s.heap i with
    | none => dropManyF pan fuel rest s
    | some a =>
      match a.strong with
      | 0 => dropManyF pan fuel rest s
      | 1 => dropManyF pan fuel (ch a.val ++ rest) { s with heap := removeAlloc s.heap i }
      | n + 2 =>
        let s1 := if n == 0 && !pan then enqueue s i else s
        dropManyF pan fuel rest { s1 with heap := heapDec s1.heap i }

/-- `InnerTable::create` (`src/unsync/table.rs` lines 144–152):
`self.table.borrow_mut().entry(data).or_insert_with_key(|key| Hc::new_unchecked(key.clone())).clone()`.

* Occupied entry: the spare key `data` passed to `entry` is dropped by the
  entry API, releasing the caller's handles embedded in it (ordinary
  `Hc::drop`s), and a clone of the stored handle is returned (strong count of
  the entry's allocation increases by one; same identifier).
* Vacant entry: a fresh identifier is allocated (see `allocate`), the key is
  moved into the map, `key.clone()` clones the value — cloning each embedded
  child handle — into a fresh `Rc` (strong count 1, the stored handle), and a
  clone of the stored handle is returned (strong count 2).

Returns the identifier of the returned handle and the new state. -/
def createF (fuel : Nat) (v : T) (s : St T) : Option (Nat × St T) :=
  match mapFindKey s.map v with
  | some p =>
    (dropManyF ch false fuel (ch v) s).map fun s1 =>
      (p.2, { s1 with heap := heapInc s1.heap p.2 })
  | none =>
    match allocate s.nextId with
    | none => none
    | some i =>
      let s1 : St T :=
        { map := (v, i) :: s.map
          heap := { id := i, val := v, strong := 1 } :: s.heap
          toCollect := s.toCollect
          nextId := i + 1 }
      let s2 := { s1 with heap := incList s1.heap (ch v) }
      some (i, { s2 with heap := heapInc s2.heap i })

/-- `Hc::clone` (`src/unsync/mod.rs` lines 100–108): same identifier, strong
count of the allocation increases by one. -/
def cloneHc (s : St T) (i : Nat) : St T :=
  { s with heap := heapInc s.heap i }

/-- `Hc::downgrade`: the weak carries the same identifier as the handle. -/
def downgradeHc (i : Nat) : Nat :=
  i

/-- `Weak::upgrade` (`src/unsync/mod.rs` lines 154–160): if the allocation is
still live (strong count positive), return an owning handle carrying the same
identifier as the weak, incrementing the strong count; otherwise `none` —
an ordinary, expected outcome, not an error. -/
def upgradeW (s : St T) (w : Nat) : Option (Nat × St T) :=
  match heapFind s.heap w with
  | some _ => some (w, cloneHc s w)
  | none => none

/-- The loop of `InnerTable::gc` (`src/unsync/table.rs` lines 159–194).
Repeatedly pop one weak from the pending-collection queue until it is empty:

* if the entry's current strong count is anything other than `1` (owned solely
  by the table's stored handle) — in particular `0` for an entry already gone,
  or `≥ 2` for one resurrected by an intervening `create`/clone — skip it:
  nothing is removed and nothing is counted;
* otherwise `collected` is incremented and the entry is removed:
  `t.data.upgrade()` yields a temporary plain `Rc` (strong count 1 → 2);
  `table.remove(&*rc)` removes the map entry keyed by that value —
  `HashMap::remove` drops the stored key, releasing the handles embedded in
  it — and hands back the stored `Hc`; the temporary `Rc` is dropped first
  (2 → 1, a plain `Rc` with no `Hc` drop hook), and only then is the stored
  `Hc` dropped: its hook sees strong count 1 ≠ 2 so it does not re-enqueue the
  entry, the count reaches 0, the allocation is freed and the value's child
  handles are dropped — possibly enqueuing the children, which this same loop
  then collects.

`none` models either fuel exhaustion or the `expect("missing from table")`
panics (which are unreachable in reachable states, see `Inv`). -/
def gcLoopF : Nat → Nat → St T → Option (Nat × St T)
  | fuel, acc, s =>
    match s.toCollect with
    | [] => some (acc, s)
    | i :: rest =>
      match fuel with
      | 0 => none
      | fuel + 1 =>
        let s0 : St T := { s with toCollect := rest }
        match heapFind s0.heap i with
        | none => gcLoopF fuel acc s0
        | some a =>
          if a.strong == 1 then
            let s1 := { s0 with heap := heapInc s0.heap i }
            match mapFindKey s1.map a.val with
            | none => none
            | some _ =>
              let s2 := { s1 with map := mapRemove s1.map a.val }
              match dropManyF ch false fuel (ch a.val) s2 with
              | none => none
              | some s3 =>
                let s4 := { s3 with heap := heapDec s3.heap i }
                match dropManyF ch false fuel [i] s4 with
                | none => none
                | some s5 => gcLoopF fuel (acc + 1) s5
          else gcLoopF fuel acc s0

/-- `InnerTable::gc` (`src/unsync/table.rs` lines 154–195): if the thread is
already panicking return `None`; otherwise run the collection loop and return
the number of entries actually removed. -/
def gcF (fuel : Nat) (pan : Bool) (s : St T) : Option (Nat × St T) :=
  if pan then none else gcLoopF ch fuel 0 s

end Ops

/-! ## A concrete client type

The shape used by the repository's `test2`: a term is an operator together
with a boxed slice of children, the children being owning handles (represented
here, as everywhere in the model, by their identifiers). -/

/-- The operator of a term (`Op` in `tests::test2`). -/
inductive Op where
  | add : Op
  | val : Int → Op
deriving DecidableEq

/-- `TermInner` of `tests::test2`: an operator and the embedded child handles
in field order. -/
structure TermInner where
  op : Op
  cs : List Nat
deriving DecidableEq

/-- The handles embedded in a `TermInner` are exactly its children. -/
def tch (t : TermInner) : List Nat :=
  t.cs

/-- The state of a freshly created table. -/
def emptySt : St TermInner :=
  { map := [], heap := [], toCollect := [], nextId := 0 }

/-- Build `Add(Val(3), Val(4))` bottom-up exactly as `tests::test2` does:
intern the two leaves, then intern the parent whose value embeds the two leaf
handles (the leaf handles are moved into the parent value). -/
def buildAdd (s : St TermInner) : Option (Nat × St TermInner) := do
  let (i3, s) ← createF tch 100 { op := Op.val 3, cs := [] } s
  let (i4, s) ← createF tch 100 { op := Op.val 4, cs := [] } s
  createF tch 100 { op := Op.add, cs := [i3, i4] } s

/-- The observable trace of the cascading scenario of `tests::test2`:
build `Add(Val(3), Val(4))` twice, record `len()` after each build, drop the
first top-level handle and run `gc` (recording the reported count and `len()`),
then drop the second and run `gc` again. -/
def cascadeTrace : Option (Bool × Nat × Nat × Nat × Nat × Nat × Nat) := do
  let (t1, s1) ← buildAdd emptySt
  let (t2, s2) ← buildAdd s1
  let s3 ← dropManyF tch false 100 [t1] s2
  let (g1, s4) ← gcF tch 100 false s3
  let s5 ← dropManyF tch false 100 [t2] s4
  let (g2, s6) ← gcF tch 100 false s5
  some (t1 == t2, lenT s1, lenT s2, g1, lenT s4, g2, lenT s6)



/-! ## Derived definitions used by the invariant and the remaining components -/

/-- The identifiers of the live allocations. -/
def idsOf (h : List (Alloc T)) : List Nat :=
  h.map Alloc.id

/-- The keys of the canonical map. -/
def keysOf (m : List (T × Nat)) : List T :=
  m.map Prod.fst

/-- The stored handles' identifiers of the canonical map. -/
def entryIdsOf (m : List (T × Nat)) : List Nat :=
  m.map Prod.snd

/-- The identifier and stored value of each live allocation, in heap order:
the part of the heap that strong-count changes leave untouched. -/
def pairsOf (h : List (Alloc T)) : List (Nat × T) :=
  h.map fun a => (a.id, a.val)

/-- The number of handles with identifier `j` embedded in values stored in
live allocations. -/
def heapChSum (ch : T → List Nat) (h : List (Alloc T)) (j : Nat) : Nat :=
  (h.map fun a => (ch a.val).count j).sum

/-- The number of owners of allocation `j` that the table itself accounts
for: the stored handle of the entry with identifier `j` (if resident), plus
every handle with identifier `j` embedded in a canonical-map key, plus every
handle with identifier `j` embedded in a value stored in a live allocation.
Every remaining owner is a handle held by the client. -/
def tableOwners (ch : T → List Nat) (s : St T) (j : Nat) : Nat :=
  (s.map.filter fun p => p.2 == j).length
    + (s.map.map fun p => (ch p.1).count j).sum
    + heapChSum ch s.heap j

/-- The residency/liveness invariant of a table state.  In order:
1. live allocations have positive strong count;
2. allocation identifiers are pairwise distinct;
3. canonical-map keys are pairwise distinct (it is a `HashMap`);
4. stored-handle identifiers are pairwise distinct;
5. every resident entry's stored handle points at a live allocation holding a
   value structurally equal to the key;
6. every live allocation is the target of the stored handle of a resident
   entry with the same identifier and key (residency ↔ liveness);
7. the owners the table accounts for never exceed the strong count (the
   difference being the client's handles);
8.–10. every identifier in the map, heap and pending queue is below the
   allocation counter (identifiers are never reused);
11. every handle embedded in a stored value has an identifier below the
   counter. -/
def TableInv (ch : T → List Nat) (s : St T) : Prop :=
  (∀ j ∈ idsOf s.heap, 1 ≤ countIn s.heap j)
    ∧ (idsOf s.heap).Nodup
    ∧ (keysOf s.map).Nodup
    ∧ (entryIdsOf s.map).Nodup
    ∧ (∀ p ∈ s.map, (p.2, p.1) ∈ pairsOf s.heap)
    ∧ (∀ q ∈ pairsOf s.heap, (q.2, q.1) ∈ s.map)
    ∧ (∀ j < s.nextId, tableOwners ch s j ≤ strongCount s j)
    ∧ (∀ p ∈ s.map, p.2 < s.nextId)
    ∧ (∀ j ∈ idsOf s.heap, j < s.nextId)
    ∧ (∀ j ∈ s.toCollect, j < s.nextId)
    ∧ (∀ q ∈ pairsOf s.heap, ∀ c ∈ ch q.2, c < s.nextId)

instance (ch : T → List Nat) (s : St T) : Decidable (TableInv ch s) := by
  unfold TableInv
  infer_instance

/-! ## Handles as Rust values: identity-based equality and hashing
(`src/unsync/mod.rs` lines 110–122 and 167–179, `src/lib.rs` lines 62–76) -/

/-- An owning handle as a Rust value: the target of its `Rc<T>` and its `Id`. -/
structure HcRepr (T : Type) where
  data : T
  id : Nat

/-- A weak handle as a Rust value: the target of its `std::rc::Weak<T>`
(`none` once the allocation is freed) and its `Id`. -/
structure WeakRepr (T : Type) where
  data : Option T
  id : Nat

/-- `PartialEq for Hc`: `Hc::id(self) == Hc::id(other)` — the data is never
consulted. -/
def hcBeq (a b : HcRepr T) : Bool :=
  a.id == b.id

/-- `PartialEq for Weak`: `self.id() == other.id()`. -/
def weakBeq (a b : WeakRepr T) : Bool :=
  a.id == b.id

/-- `Hash for Id` (`src/lib.rs`): the hasher is fed the single `u64` word
`id.wrapping_mul(PRIME_1).wrapping_add(PRIME_2)`; `i` is the numeric value of
the 64-bit identifier. -/
def idHash (i : Nat) : Nat :=
  (i * 15124035408605323001 + 15133577374253939647) % 2 ^ 64

/-- `Hash for Hc`: hash of the identifier only. -/
def hcHash (h : HcRepr T) : Nat :=
  idHash h.id

/-- `Hash for Weak`: hash of the identifier only. -/
def weakHash (w : WeakRepr T) : Nat :=
  idHash w.id

/-! ## The auxiliary weak-keyed cache (`src/cache.rs`) -/

/-- `CacheOf::collect` (`src/cache.rs` lines 27–29):
`self.inner.retain(|k, _| k.upgrade().is_some())` — keep exactly the entries
whose weak key still upgrades.  The cache is a map keyed by weak handles
(represented by their identifiers); the temporary handle produced by the
`upgrade` probe is dropped again inside `is_some`, so the table state is read
but not changed. -/
def collectCache {V : Type} (s : St T) (m : List (Nat × V)) : List (Nat × V) :=
  m.filter fun kv => (upgradeW s kv.1).isSome

/-! ## Small concrete inputs used by the witnesses -/

/-- The leaf value `Val 1`. -/
def leaf1 : TermInner :=
  { op := Op.val 1, cs := [] }

/-- A one-entry table: `Val 1` is resident with the stored handle plus one
client handle (strong count 2). -/
def stOne : St TermInner :=
  { map := [(leaf1, 0)], heap := [⟨0, leaf1, 2⟩], toCollect := [], nextId := 1 }

/-- `stOne` after the client handle has been dropped: the count fell to the
table-only value 1 and the handle enqueued itself. -/
def stOneDropped : St TermInner :=
  { map := [(leaf1, 0)], heap := [⟨0, leaf1, 1⟩], toCollect := [0], nextId := 1 }

/-- A one-entry table whose sole entry was enqueued for collection and then
resurrected: strong count back at 2 while the stale weak is still pending. -/
def stRes : St TermInner :=
  { map := [(leaf1, 0)], heap := [⟨0, leaf1, 2⟩], toCollect := [0], nextId := 1 }

/-! ## Basic facts about the primitives -/

set_option linter.unusedSectionVars false

theorem heapFind_cons (a : Alloc T) (h : List (Alloc T)) (i : Nat) :
    heapFind (a :: h) i = if a.id = i then some a else heapFind h i := by
  by_cases hai : a.id = i <;> simp [heapFind, List.find?_cons, hai]

theorem heapInc_cons (a : Alloc T) (h : List (Alloc T)) (i : Nat) :
    heapInc (a :: h) i
      = if a.id = i then { a with strong := a.strong + 1 } :: h else a :: heapInc h i := by
  by_cases hai : a.id = i <;> simp [heapInc, hai]

theorem heapDec_cons (a : Alloc T) (h : List (Alloc T)) (i : Nat) :
    heapDec (a :: h) i
      = if a.id = i then { a with strong := a.strong - 1 } :: h else a :: heapDec h i := by
  by_cases hai : a.id = i <;> simp [heapDec, hai]

theorem removeAlloc_cons (a : Alloc T) (h : List (Alloc T)) (i : Nat) :
    removeAlloc (a :: h) i = if a.id = i then h else a :: removeAlloc h i := by
  by_cases hai : a.id = i <;> simp [removeAlloc, hai]

theorem mapFindKey_cons (p : T × Nat) (m : List (T × Nat)) (v : T) :
    mapFindKey (p :: m) v = if p.1 = v then some p else mapFindKey m v := by
  by_cases hp : p.1 = v <;> simp [mapFindKey, List.find?_cons, hp]

theorem mapRemove_cons (p : T × Nat) (m : List (T × Nat)) (v : T) :
    mapRemove (p :: m) v = if p.1 = v then m else p :: mapRemove m v :=
  rfl

theorem heapFind_mem {h : List (Alloc T)} {i : Nat} {a : Alloc T}
    (hf : heapFind h i = some a) : a ∈ h :=
  List.mem_of_find?_eq_some hf

theorem heapFind_id {h : List (Alloc T)} {i : Nat} {a : Alloc T}
    (hf : heapFind h i = some a) : a.id = i := by
  have := List.find?_some hf
  simpa using this

theorem heapFind_eq_none {h : List (Alloc T)} {i : Nat} :
    heapFind h i = none ↔ ∀ a ∈ h, a.id ≠ i := by
  simp [heapFind, List.find?_eq_none]

theorem heapFind_isSome_iff {h : List (Alloc T)} {i : Nat} :
    (heapFind h i).isSome ↔ i ∈ idsOf h := by
  rw [heapFind, List.find?_isSome, idsOf]
  constructor
  · rintro ⟨a, ha, hai⟩
    exact (beq_iff_eq.mp hai) ▸ List.mem_map_of_mem Alloc.id ha
  · rintro hmem
    rcases List.mem_map.mp hmem with ⟨a, ha, hai⟩
    exact ⟨a, ha, beq_iff_eq.mpr hai⟩

theorem heapFind_of_mem_nodup {h : List (Alloc T)} {a : Alloc T}
    (hnd : (idsOf h).Nodup) (ha : a ∈ h) : heapFind h a.id = some a := by
  induction h with
  | nil => cases ha
  | cons b h ih =>
    rcases List.mem_cons.mp ha with rfl | ha
    · simp [heapFind_cons]
    · have hne : b.id ≠ a.id := by
        intro hc
        exact (List.nodup_cons.mp hnd).1 (hc ▸ List.mem_map_of_mem Alloc.id ha)
    
      rw [heapFind_cons, if_neg hne]
      exact ih (List.nodup_cons.mp hnd).2 ha

theorem heapInc_of_none {h : List (Alloc T)} {i : Nat}
    (hf : heapFind h i = none) : heapInc h i = h := by
  induction h with
  | nil => rfl
  | cons a h ih =>
    rw [heapFind_cons] at hf
    by_cases hai : a.id = i
    · rw [if_pos hai] at hf; cases hf
    · rw [if_neg hai] at hf
      rw [heapInc_cons, if_neg hai, ih hf]

theorem heapFind_heapInc_self (h : List (Alloc T)) (i : Nat) :
    heapFind (heapInc h i) i
      = (heapFind h i).map fun a => { a with strong := a.strong + 1 } := by
  induction h with
  | nil => rfl
  | cons a h ih =>
    by_cases hai : a.id = i
    · rw [heapInc_cons, if_pos hai, heapFind_cons, heapFind_cons]
      simp [hai]
    · rw [heapInc_cons, if_neg hai, heapFind_cons, if_neg hai, heapFind_cons,
        if_neg hai, ih]

theorem heapFind_heapInc_ne (h : List (Alloc T)) {i j : Nat} (hne : j ≠ i) :
    heapFind (heapInc h i) j = heapFind h j := by
  induction h with
  | nil => rfl
  | cons a h ih =>
    by_cases hai : a.id = i
    · have haj : a.id ≠ j := fun hc => hne (hai ▸ hc : i = j).symm
      rw [heapInc_cons, if_pos hai, heapFind_cons, heapFind_cons, if_neg haj]
      simp [haj]
    · rw [heapInc_cons, if_neg hai, heapFind_cons, heapFind_cons, ih]

theorem heapFind_heapDec_self (h : List (Alloc T)) (i : Nat) :
    heapFind (heapDec h i) i
      = (heapFind h i).map fun a => { a with strong := a.strong - 1 } := by
  induction h with
  | nil => rfl
  | cons a h ih =>
    by_cases hai : a.id = i
    · rw [heapDec_cons, if_pos hai, heapFind_cons, heapFind_cons]
      simp [hai]
    · rw [heapDec_cons, if_neg hai, heapFind_cons, if_neg hai, heapFind_cons,
        if_neg hai, ih]

theorem heapFind_heapDec_ne (h : List (Alloc T)) {i j : Nat} (hne : j ≠ i) :
    heapFind (heapDec h i) j = heapFind h j := by
  induction h with
  | nil => rfl
  | cons a h ih =>
    by_cases hai : a.id = i
    · have haj : a.id ≠ j := fun hc => hne (hai ▸ hc : i = j).symm
      rw [heapDec_cons, if_pos hai, heapFind_cons, heapFind_cons, if_neg haj]
      simp [haj]
    · rw [heapDec_cons, if_neg hai, heapFind_cons, heapFind_cons, ih]

theorem countIn_heapInc_self {h : List (Alloc T)} {i : Nat} {a : Alloc T}
    (hf : heapFind h i = some a) :
    countIn (heapInc h i) i = countIn h i + 1 := by
  simp [countIn, heapFind_heapInc_self, hf]

theorem countIn_heapInc_ne (h : List (Alloc T)) {i j : Nat} (hne : j ≠ i) :
    countIn (heapInc h i) j = countIn h j := by
  simp [countIn, heapFind_heapInc_ne h hne]

theorem countIn_heapDec_self (h : List (Alloc T)) (i : Nat) :
    countIn (heapDec h i) i = countIn h i - 1 := by
  rw [countIn, countIn, heapFind_heapDec_self]
  cases heapFind h i <;> simp

theorem countIn_heapDec_ne (h : List (Alloc T)) {i j : Nat} (hne : j ≠ i) :
    countIn (heapDec h i) j = countIn h j := by
  simp [countIn, heapFind_heapDec_ne h hne]

theorem countIn_decList (ws : List Nat) (h : List (Alloc T)) (j : Nat) :
    countIn (decList h ws) j = countIn h j - ws.count j := by
  induction ws generalizing h with
  | nil => simp [decList]
  | cons w ws ih =>
    have hstep : decList h (w :: ws) = decList (heapDec h w) ws := rfl
    by_cases hw : j = w
    · subst hw
      rw [hstep, ih, countIn_heapDec_self, List.count_cons_self, Nat.sub_sub,
        Nat.add_comm]
    · rw [hstep, ih, countIn_heapDec_ne h hw, List.count_cons_of_ne]
      exact hw

theorem heapFind_decList_not_mem {ws : List Nat} {j : Nat} (h : List (Alloc T))
    (hj : j ∉ ws) : heapFind (decList h ws) j = heapFind h j := by
  induction ws generalizing h with
  | nil => rfl
  | cons w ws ih =>
    have hne : j ≠ w := fun hc => hj (hc ▸ List.mem_cons_self w ws)
    have htail : j ∉ ws := fun hc => hj (List.mem_cons_of_mem w hc)
    calc heapFind (decList h (w :: ws)) j
        = heapFind (decList (heapDec h w) ws) j := rfl
      _ = heapFind (heapDec h w) j := ih (heapDec h w) htail
      _ = heapFind h j := heapFind_heapDec_ne h hne

section Projections

variable {B : Type}

theorem map_heapInc (f : Alloc T → B) (hf : ∀ a n, f { a with strong := n } = f a)
    (h : List (Alloc T)) (i : Nat) : (heapInc h i).map f = h.map f := by
  induction h with
  | nil => rfl
  | cons a h ih =>
    by_cases hai : a.id = i
    · rw [heapInc_cons, if_pos hai, List.map_cons, List.map_cons, hf]
    · rw [heapInc_cons, if_neg hai, List.map_cons, List.map_cons, ih]

theorem map_heapDec (f : Alloc T → B) (hf : ∀ a n, f { a with strong := n } = f a)
    (h : List (Alloc T)) (i : Nat) : (heapDec h i).map f = h.map f := by
  induction h with
  | nil => rfl
  | cons a h ih =>
    by_cases hai : a.id = i
    · rw [heapDec_cons, if_pos hai, List.map_cons, List.map_cons, hf]
    · rw [heapDec_cons, if_neg hai, List.map_cons, List.map_cons, ih]

theorem map_decList (f : Alloc T → B) (hf : ∀ a n, f { a with strong := n } = f a)
    (h : List (Alloc T)) (ws : List Nat) : (decList h ws).map f = h.map f := by
  induction ws generalizing h with
  | nil => rfl
  | cons w ws ih =>
    calc (decList (heapDec h w) ws).map f
        = (heapDec h w).map f := ih (heapDec h w)
      _ = h.map f := map_heapDec f hf h w

theorem map_incList (f : Alloc T → B) (hf : ∀ a n, f { a with strong := n } = f a)
    (h : List (Alloc T)) (ws : List Nat) : (incList h ws).map f = h.map f := by
  induction ws generalizing h with
  | nil => rfl
  | cons w ws ih =>
    calc (incList (heapInc h w) ws).map f
        = (heapInc h w).map f := ih (heapInc h w)
      _ = h.map f := map_heapInc f hf h w

end Projections

theorem idsOf_heapInc (h : List (Alloc T)) (i : Nat) : idsOf (heapInc h i) = idsOf h :=
  map_heapInc Alloc.id (fun _ _ => rfl) h i

theorem idsOf_heapDec (h : List (Alloc T)) (i : Nat) : idsOf (heapDec h i) = idsOf h :=
  map_heapDec Alloc.id (fun _ _ => rfl) h i

theorem idsOf_decList (h : List (Alloc T)) (ws : List Nat) :
    idsOf (decList h ws) = idsOf h :=
  map_decList Alloc.id (fun _ _ => rfl) h ws

theorem idsOf_incList (h : List (Alloc T)) (ws : List Nat) :
    idsOf (incList h ws) = idsOf h :=
  map_incList Alloc.id (fun _ _ => rfl) h ws

theorem removeAlloc_sublist (h : List (Alloc T)) (i : Nat) :
    (removeAlloc h i).Sublist h := by
  induction h with
  | nil => exact List.Sublist.refl []
  | cons a h ih =>
    by_cases hai : a.id = i
    · rw [removeAlloc_cons, if_pos hai]
      exact List.sublist_cons_self a h
    · rw [removeAlloc_cons, if_neg hai]
      exact ih.cons₂ a

theorem removeAlloc_of_none {h : List (Alloc T)} {i : Nat}
    (hf : heapFind h i = none) : removeAlloc h i = h := by
  induction h with
  | nil => rfl
  | cons a h ih =>
    rw [heapFind_cons] at hf
    by_cases hai : a.id = i
    · rw [if_pos hai] at hf; cases hf
    · rw [if_neg hai] at hf
      rw [removeAlloc_cons, if_neg hai, ih hf]

theorem heapFind_removeAlloc_ne (h : List (Alloc T)) {i j : Nat} (hne : j ≠ i) :
    heapFind (removeAlloc h i) j = heapFind h j := by
  induction h with
  | nil => rfl
  | cons a h ih =>
    by_cases hai : a.id = i
    · have haj : a.id ≠ j := fun hc => hne (hai ▸ hc : i = j).symm
      rw [removeAlloc_cons, if_pos hai, heapFind_cons, if_neg haj]
    · rw [removeAlloc_cons, if_neg hai, heapFind_cons, heapFind_cons, ih]

theorem heapFind_removeAlloc_self {h : List (Alloc T)} (i : Nat)
    (hnd : (idsOf h).Nodup) : heapFind (removeAlloc h i) i = none := by
  induction h with
  | nil => rfl
  | cons a h ih =>
    by_cases hai : a.id = i
    · rw [removeAlloc_cons, if_pos hai]
      rw [heapFind_eq_none]
      intro b hb hbi
      exact (List.nodup_cons.mp hnd).1
        (hai ▸ hbi ▸ List.mem_map_of_mem Alloc.id hb)
    · rw [removeAlloc_cons, if_neg hai, heapFind_cons, if_neg hai]
      exact ih (List.nodup_cons.mp hnd).2

theorem sum_removeAlloc (f : Alloc T → Nat) {h : List (Alloc T)} {i : Nat}
    {a : Alloc T} (hf : heapFind h i = some a) :
    ((removeAlloc h i).map f).sum + f a = (h.map f).sum := by
  induction h with
  | nil => cases hf
  | cons b h ih =>
    rw [heapFind_cons] at hf
    by_cases hbi : b.id = i
    · rw [if_pos hbi] at hf
      cases hf
      rw [removeAlloc_cons, if_pos hbi, List.map_cons, List.sum_cons, Nat.add_comm]
    · rw [if_neg hbi] at hf
      rw [removeAlloc_cons, if_neg hbi, List.map_cons, List.sum_cons,
        List.map_cons, List.sum_cons, Nat.add_assoc, ih hf]

theorem length_removeAlloc {h : List (Alloc T)} {i : Nat} {a : Alloc T}
    (hf : heapFind h i = some a) :
    (removeAlloc h i).length + 1 = h.length := by
  induction h with
  | nil => cases hf
  | cons b h ih =>
    rw [heapFind_cons] at hf
    by_cases hbi : b.id = i
    · rw [removeAlloc_cons, if_pos hbi, List.length_cons]
    · rw [if_neg hbi] at hf
      rw [removeAlloc_cons, if_neg hbi, List.length_cons, List.length_cons,
        ← ih hf]

theorem mapFindKey_mem {m : List (T × Nat)} {v : T} {p : T × Nat}
    (hf : mapFindKey m v = some p) : p ∈ m ∧ p.1 = v := by
  refine ⟨List.mem_of_find?_eq_some hf, ?_⟩
  have := List.find?_some hf
  simpa using this

theorem mapFindKey_eq_none {m : List (T × Nat)} {v : T} :
    mapFindKey m v = none ↔ ∀ p ∈ m, p.1 ≠ v := by
  simp [mapFindKey, List.find?_eq_none]

theorem mapFindKey_of_mem_nodup {m : List (T × Nat)} {p : T × Nat}
    (hnd : (keysOf m).Nodup) (hp : p ∈ m) : mapFindKey m p.1 = some p := by
  induction m with
  | nil => cases hp
  | cons q m ih =>
    rcases List.mem_cons.mp hp with rfl | hp
    · rw [mapFindKey_cons, if_pos rfl]
    · have hne : q.1 ≠ p.1 := by
        intro hc
        exact (List.nodup_cons.mp hnd).1 (hc ▸ List.mem_map_of_mem Prod.fst hp)
      rw [mapFindKey_cons, if_neg hne]
      exact ih (List.nodup_cons.mp hnd).2 hp

theorem mapRemove_sublist (m : List (T × Nat)) (v : T) :
    (mapRemove m v).Sublist m := by
  induction m with
  | nil => exact List.Sublist.refl []
  | cons p m ih =>
    by_cases hp : p.1 = v
    · rw [mapRemove_cons, if_pos hp]
      exact List.sublist_cons_self p m
    · rw [mapRemove_cons, if_neg hp]
      exact ih.cons₂ p

theorem sum_mapRemove (f : T × Nat → Nat) {m : List (T × Nat)} {v : T}
    {p : T × Nat} (hf : mapFindKey m v = some p) :
    ((mapRemove m v).map f).sum + f p = (m.map f).sum := by
  induction m with
  | nil => cases hf
  | cons q m ih =>
    rw [mapFindKey_cons] at hf
    by_cases hq : q.1 = v
    · rw [if_pos hq] at hf
      cases hf
      rw [mapRemove_cons, if_pos hq, List.map_cons, List.sum_cons, Nat.add_comm]
    · rw [if_neg hq] at hf
      rw [mapRemove_cons, if_neg hq, List.map_cons, List.sum_cons,
        List.map_cons, List.sum_cons, Nat.add_assoc, ih hf]

theorem filterLength_mapRemove (q : T × Nat → Bool) {m : List (T × Nat)} {v : T}
    {p : T × Nat} (hf : mapFindKey m v = some p) :
    ((mapRemove m v).filter q).length + (if q p then 1 else 0)
      = (m.filter q).length := by
  induction m with
  | nil => cases hf
  | cons r m ih =>
    rw [mapFindKey_cons] at hf
    by_cases hr : r.1 = v
    · rw [if_pos hr] at hf
      cases hf
      rw [mapRemove_cons, if_pos hr, List.filter_cons]
      by_cases hq : q p
      · rw [if_pos hq, if_pos hq, List.length_cons]
      · rw [if_neg hq, if_neg hq, Nat.add_zero]
    · rw [if_neg hr] at hf
      rw [mapRemove_cons, if_neg hr, List.filter_cons, List.filter_cons]
      by_cases hq : q r
      · rw [if_pos hq, if_pos hq, List.length_cons, List.length_cons, ← ih hf,
          Nat.add_right_comm]
      · rw [if_neg hq, if_neg hq, ih hf]

theorem length_mapRemove {m : List (T × Nat)} {v : T} {p : T × Nat}
    (hf : mapFindKey m v = some p) :
    (mapRemove m v).length + 1 = m.length := by
  induction m with
  | nil => cases hf
  | cons q m ih =>
    rw [mapFindKey_cons] at hf
    by_cases hq : q.1 = v
    · rw [mapRemove_cons, if_pos hq, List.length_cons]
    · rw [if_neg hq] at hf
      rw [mapRemove_cons, if_neg hq, List.length_cons, List.length_cons, ← ih hf]

theorem mem_mapRemove_of_key_ne {m : List (T × Nat)} {v : T} {q : T × Nat}
    (hq : q ∈ m) (hne : q.1 ≠ v) : q ∈ mapRemove m v := by
  induction m with
  | nil => cases hq
  | cons p m ih =>
    rcases List.mem_cons.mp hq with rfl | hq
    · rw [mapRemove_cons, if_neg hne]
      exact List.mem_cons_self q (mapRemove m v)
    · by_cases hp : p.1 = v
      · rw [mapRemove_cons, if_pos hp]
        exact hq
      · rw [mapRemove_cons, if_neg hp]
        exact List.mem_cons_of_mem p (ih hq)

theorem key_ne_of_mem_mapRemove {m : List (T × Nat)} {v : T}
    (hnd : (keysOf m).Nodup) : ∀ q ∈ mapRemove m v, q.1 ≠ v := by
  induction m with
  | nil => intro q hq; cases hq
  | cons p m ih =>
    by_cases hp : p.1 = v
    · rw [mapRemove_cons, if_pos hp]
      intro q hq hqv
      exact (List.nodup_cons.mp hnd).1
        (hp ▸ hqv ▸ List.mem_map_of_mem Prod.fst hq)
    · rw [mapRemove_cons, if_neg hp]
      intro q hq hqv
      rcases List.mem_cons.mp hq with rfl | hq
      · exact hp hqv
      · exact ih (List.nodup_cons.mp hnd).2 q hq hqv

theorem countIn_incList {ws : List Nat} {h : List (Alloc T)} {j : Nat}
    (hws : ∀ w ∈ ws, w ∈ idsOf h) :
    countIn (incList h ws) j = countIn h j + ws.count j := by
  induction ws generalizing h with
  | nil => simp [incList]
  | cons w ws ih =>
    have hw : w ∈ idsOf h := hws w (List.mem_cons_self w ws)
    have hfw : ∃ a, heapFind h w = some a := by
      rcases Option.isSome_iff_exists.mp (heapFind_isSome_iff.mpr hw) with ⟨a, ha⟩
      exact ⟨a, ha⟩
    rcases hfw with ⟨a, ha⟩
    have hstep : incList h (w :: ws) = incList (heapInc h w) ws := rfl
    have hws2 : ∀ x ∈ ws, x ∈ idsOf (heapInc h w) := by
      intro x hx
      rw [idsOf_heapInc]
      exact hws x (List.mem_cons_of_mem w hx)
    by_cases hjw : j = w
    · subst hjw
      rw [hstep, ih hws2, countIn_heapInc_self ha, List.count_cons_self,
        Nat.add_assoc, Nat.add_comm 1]
    · rw [hstep, ih hws2, countIn_heapInc_ne h hjw, List.count_cons_of_ne]
      exact hjw

theorem heapFind_incList_not_mem {ws : List Nat} {j : Nat} (h : List (Alloc T))
    (hj : j ∉ ws) : heapFind (incList h ws) j = heapFind h j := by
  induction ws generalizing h with
  | nil => rfl
  | cons w ws ih =>
    have hne : j ≠ w := fun hc => hj (hc ▸ List.mem_cons_self w ws)
    have htail : j ∉ ws := fun hc => hj (List.mem_cons_of_mem w hc)
    calc heapFind (incList h (w :: ws)) j
        = heapFind (incList (heapInc h w) ws) j := rfl
      _ = heapFind (heapInc h w) j := ih (heapInc h w) htail
      _ = heapFind h j := heapFind_heapInc_ne h hne

/-! ## Behaviour of `dropManyF` -/

section DropLemmas

variable {ch : T → List Nat} {pan : Bool}

theorem dropManyF_nil (fuel : Nat) (s : St T) :
    dropManyF ch pan fuel [] s = some s := by
  cases fuel <;> rfl

theorem dropManyF_cons_dead {s : St T} {i : Nat} {fuel : Nat} (rest : List Nat)
    (hf : heapFind s.heap i = none) :
    dropManyF ch pan (fuel + 1) (i :: rest) s = dropManyF ch pan fuel rest s := by
  simp only [dropManyF, hf]

theorem dropManyF_cons_free {s : St T} {i : Nat} {a : Alloc T} {fuel : Nat}
    (rest : List Nat) (hf : heapFind s.heap i = some a) (hs : a.strong = 1) :
    dropManyF ch pan (fuel + 1) (i :: rest) s
      = dropManyF ch pan fuel (ch a.val ++ rest)
          { s with heap := removeAlloc s.heap i } := by
  simp only [dropManyF, hf, hs]

theorem dropManyF_cons_dec {s : St T} {i : Nat} {a : Alloc T} {n : Nat}
    {fuel : Nat} (rest : List Nat) (hf : heapFind s.heap i = some a)
    (hs : a.strong = n + 2) :
    dropManyF ch pan (fuel + 1) (i :: rest) s
      = dropManyF ch pan fuel rest
          { s with heap := heapDec s.heap i,
                   toCollect := if a.strong = 2 ∧ pan = false
                     then i :: s.toCollect else s.toCollect } := by
  simp only [dropManyF, hf, hs]
  by_cases hn : n = 0
  · subst hn
    cases pan <;> simp [enqueue, hs]
  · have hbeq : (n == 0) = false := by simp [hn]
    simp [hbeq, hn, enqueue]

theorem dropManyF_frame : ∀ (fuel : Nat) (ws : List Nat) (s s' : St T),
    dropManyF ch pan fuel ws s = some s' →
    s'.map = s.map ∧ s'.nextId = s.nextId := by
  intro fuel
  induction fuel with
  | zero =>
    intro ws s s' hd
    cases ws with
    | nil => cases hd; exact ⟨rfl, rfl⟩
    | cons i rest => cases hd
  | succ fuel ih =>
    intro ws s s' hd
    cases ws with
    | nil => cases hd; exact ⟨rfl, rfl⟩
    | cons i rest =>
      cases hfind : heapFind s.heap i with
      | none =>
        rw [dropManyF_cons_dead rest hfind] at hd
        exact ih _ _ _ hd
      | some a =>
        match hstr : a.strong with
        | 0 =>
          simp only [dropManyF, hfind, hstr] at hd
          have h := ih _ _ _ hd
          exact h
        | 1 =>
          rw [dropManyF_cons_free rest hfind hstr] at hd
          have h := ih _ _ _ hd
          exact h
        | n + 2 =>
          rw [dropManyF_cons_dec rest hfind hstr] at hd
          have h := ih _ _ _ hd
          exact h

theorem dropManyF_noFree : ∀ (ws : List Nat) (fuel : Nat) (s s' : St T),
    (∀ j ∈ ws, ws.count j < countIn s.heap j) →
    dropManyF ch pan fuel ws s = some s' →
    s'.map = s.map ∧ s'.nextId = s.nextId ∧ s'.heap = decList s.heap ws ∧
      (∀ x ∈ s'.toCollect, x ∈ ws ∨ x ∈ s.toCollect) := by
  intro ws
  induction ws with
  | nil =>
    intro fuel s s' _ hd
    rw [dropManyF_nil] at hd
    cases hd
    exact ⟨rfl, rfl, rfl, fun x hx => Or.inr hx⟩
  | cons i rest ih =>
    intro fuel s s' hcnt hd
    cases fuel with
    | zero => cases hd
    | succ fuel =>
      have hi : (i :: rest).count i < countIn s.heap i :=
        hcnt i (List.mem_cons_self i rest)
      have hipos : 1 ≤ (i :: rest).count i := by
        rw [List.count_cons_self]
        omega
      have h2 : 2 ≤ countIn s.heap i := by omega
      cases hfind : heapFind s.heap i with
      | none => simp [countIn, hfind] at h2
      | some a =>
        have hstr2 : 2 ≤ a.strong := by
          simpa [countIn, hfind] using h2
        have hs : a.strong = (a.strong - 2) + 2 := by omega
        rw [dropManyF_cons_dec rest hfind hs] at hd
        have hcnt2 : ∀ j ∈ rest,
            rest.count j < countIn (heapDec s.heap i) j := by
          intro j hj
          by_cases hji : j = i
          · subst hji
            rw [countIn_heapDec_self]
            have := hcnt j (List.mem_cons_of_mem _ hj)
            rw [List.count_cons_self] at this
            omega
          · rw [countIn_heapDec_ne s.heap hji]
            have := hcnt j (List.mem_cons_of_mem _ hj)
            rw [List.count_cons_of_ne hji] at this
            exact this
        rcases ih _ _ _ hcnt2 hd with ⟨hmap, hnext, hheap, hqueue⟩
        refine ⟨hmap, hnext, hheap, ?_⟩
        intro x hx
        rcases hqueue x hx with hx1 | hx2
        · exact Or.inl (List.mem_cons_of_mem i hx1)
        · simp only at hx2
          by_cases hq : a.strong = 2 ∧ pan = false
          · rw [if_pos hq] at hx2
            rcases List.mem_cons.mp hx2 with rfl | hx3
            · exact Or.inl (List.mem_cons_self x rest)
            · exact Or.inr hx3
          · rw [if_neg hq] at hx2
            exact Or.inr hx2

end DropLemmas

/-! ## Behaviour of the collection loop -/

theorem St_eta {s : St T} (h : s.toCollect = []) :
    { s with toCollect := ([] : List Nat) } = s := by
  cases s
  simp only at h
  simp [h]

section GcLemmas

variable {ch : T → List Nat}

theorem gcLoopF_empty {s : St T} (hq : s.toCollect = []) (fuel acc : Nat) :
    gcLoopF ch fuel acc s = some (acc, s) := by
  rw [gcLoopF, hq]

theorem gcLoopF_zero {s : St T} {i : Nat} {rest : List Nat}
    (hq : s.toCollect = i :: rest) (acc : Nat) :
    gcLoopF ch 0 acc s = none := by
  rw [gcLoopF, hq]

theorem gcLoopF_skip_dead {s : St T} {i : Nat} {rest : List Nat}
    (hq : s.toCollect = i :: rest) (hf : heapFind s.heap i = none)
    (fuel acc : Nat) :
    gcLoopF ch (fuel + 1) acc s
      = gcLoopF ch fuel acc { s with toCollect := rest } := by
  rw [gcLoopF, hq]
  simp only [hf]

theorem gcLoopF_skip_live {s : St T} {i : Nat} {rest : List Nat} {a : Alloc T}
    (hq : s.toCollect = i :: rest) (hf : heapFind s.heap i = some a)
    (hs : a.strong ≠ 1) (fuel acc : Nat) :
    gcLoopF ch (fuel + 1) acc s
      = gcLoopF ch fuel acc { s with toCollect := rest } := by
  have hb : (a.strong == 1) = false := by simp [hs]
  rw [gcLoopF, hq]
  simp only [hf, hb]
  rfl

theorem gcLoopF_remove {s : St T} {i : Nat} {rest : List Nat} {a : Alloc T}
    {p : T × Nat} (hq : s.toCollect = i :: rest)
    (hf : heapFind s.heap i = some a) (hs : a.strong = 1)
    (hm : mapFindKey s.map a.val = some p) (fuel acc : Nat) :
    gcLoopF ch (fuel + 1) acc s
      = match dropManyF ch false fuel (ch a.val)
          { s with toCollect := rest,
                   heap := heapInc s.heap i,
                   map := mapRemove s.map a.val } with
        | none => none
        | some s3 =>
          match dropManyF ch false fuel [i] { s3 with heap := heapDec s3.heap i } with
          | none => none
          | some s5 => gcLoopF ch fuel (acc + 1) s5 := by
  rw [gcLoopF, hq]
  simp only [hf, hs, hm]
  rfl

theorem gcLoopF_remove_succ {s : St T} {i : Nat} {rest : List Nat}
    {a : Alloc T} {p : T × Nat} {fuel acc n : Nat} {s' : St T}
    (hq : s.toCollect = i :: rest)
    (hf : heapFind s.heap i = some a) (hs : a.strong = 1)
    (hm : mapFindKey s.map a.val = some p)
    (hd : gcLoopF ch (fuel + 1) acc s = some (n, s')) :
    ∃ s3 s5 : St T,
      dropManyF ch false fuel (ch a.val)
          { s with toCollect := rest, heap := heapInc s.heap i,
                   map := mapRemove s.map a.val } = some s3 ∧
      dropManyF ch false fuel [i] { s3 with heap := heapDec s3.heap i } = some s5 ∧
      gcLoopF ch fuel (acc + 1) s5 = some (n, s') := by
  rw [gcLoopF_remove hq hf hs hm] at hd
  split at hd
  · cases hd
  · next s3 heq3 =>
    split at hd
    · cases hd
    · next s5 heq5 => exact ⟨s3, s5, heq3, heq5, hd⟩

theorem gcLoopF_length : ∀ (fuel acc : Nat) (s : St T) (n : Nat) (s' : St T),
    gcLoopF ch fuel acc s = some (n, s') →
    lenT s + acc = lenT s' + n := by
  intro fuel
  induction fuel with
  | zero =>
    intro acc s n s' hd
    cases hq : s.toCollect with
    | nil =>
      rw [gcLoopF_empty hq] at hd
      cases hd
      rfl
    | cons i rest =>
      rw [gcLoopF_zero hq] at hd
      cases hd
  | succ fuel ih =>
    intro acc s n s' hd
    cases hq : s.toCollect with
    | nil =>
      rw [gcLoopF_empty hq] at hd
      cases hd
      rfl
    | cons i rest =>
      cases hfind : heapFind s.heap i with
      | none =>
        rw [gcLoopF_skip_dead hq hfind] at hd
        have h := ih _ _ _ _ hd
        exact h
      | some a =>
        by_cases hs : a.strong = 1
        · cases hm : mapFindKey s.map a.val with
          | none =>
            rw [gcLoopF, hq] at hd
            simp [hfind, hs, hm] at hd
          | some p =>
            rcases gcLoopF_remove_succ hq hfind hs hm hd with
              ⟨s3, s5, hd3, hd5, hrec⟩
            have h3 := (dropManyF_frame _ _ _ _ hd3).1
            have h5 := (dropManyF_frame _ _ _ _ hd5).1
            have hmap5 : s5.map = mapRemove s.map a.val := by
              rw [h5]
              exact h3
            have hlen : lenT s5 + 1 = lenT s := by
              rw [lenT, lenT, hmap5]
              exact length_mapRemove hm
            have hrest := ih _ _ _ _ hrec
            omega
        · rw [gcLoopF_skip_live hq hfind hs] at hd
          have h := ih _ _ _ _ hd
          exact h

theorem gcLoopF_skip_all : ∀ (q : List Nat) (s : St T) (fuel acc : Nat),
    s.toCollect = q → (∀ j ∈ q, strongCount s j ≠ 1) → q.length ≤ fuel →
    gcLoopF ch fuel acc s = some (acc, { s with toCollect := [] }) := by
  intro q
  induction q with
  | nil =>
    intro s fuel acc hq _ _
    rw [gcLoopF_empty hq, St_eta hq]
  | cons i rest ih =>
    intro s fuel acc hq hcnt hfuel
    cases fuel with
    | zero => simp at hfuel
    | succ fuel =>
      have hi : strongCount s i ≠ 1 := hcnt i (List.mem_cons_self i rest)
      have hrest : ∀ j ∈ rest, strongCount { s with toCollect := rest } j ≠ 1 := by
        intro j hj
        exact hcnt j (List.mem_cons_of_mem i hj)
      have hfuel2 : rest.length ≤ fuel := by
        simp only [List.length_cons] at hfuel
        omega
      cases hfind : heapFind s.heap i with
      | none =>
        rw [gcLoopF_skip_dead hq hfind, ih _ _ _ rfl hrest hfuel2]
      | some a =>
        have hs : a.strong ≠ 1 := by
          rw [strongCount, countIn, hfind] at hi
          exact hi
        rw [gcLoopF_skip_live hq hfind hs, ih _ _ _ rfl hrest hfuel2]

end GcLemmas

section MoreLemmas

variable {ch : T → List Nat}

theorem dropManyF_single {s : St T} {i fuel : Nat} {s' : St T} {pan : Bool}
    (h2 : 2 ≤ strongCount s i)
    (hd : dropManyF ch pan fuel [i] s = some s') :
    s' = { s with heap := heapDec s.heap i,
                  toCollect := (if strongCount s i = 2 ∧ pan = false
                    then i :: s.toCollect else s.toCollect) } := by
  cases fuel with
  | zero => cases hd
  | succ fuel =>
    cases hfind : heapFind s.heap i with
    | none => simp [strongCount, countIn, hfind] at h2
    | some a =>
      have hcnt : strongCount s i = a.strong := by
        simp [strongCount, countIn, hfind]
      rw [hcnt] at h2
      have hstr : a.strong = (a.strong - 2) + 2 := by omega
      rw [dropManyF_cons_dec [] hfind hstr, dropManyF_nil] at hd
      cases hd
      rw [hcnt]

theorem createF_vacant {s : St T} {v : T} (fuel : Nat)
    (hm : mapFindKey s.map v = none) (hof : s.nextId < 2 ^ 64) :
    createF ch fuel v s = some (s.nextId,
      { map := (v, s.nextId) :: s.map,
        heap := heapInc
          (incList ({ id := s.nextId, val := v, strong := 1 } :: s.heap) (ch v))
          s.nextId,
        toCollect := s.toCollect,
        nextId := s.nextId + 1 }) := by
  rw [createF, hm, allocate, if_pos hof]

theorem createF_occupied {s : St T} {v : T} {p : T × Nat} (fuel : Nat)
    (hm : mapFindKey s.map v = some p) :
    createF ch fuel v s = (dropManyF ch false fuel (ch v) s).map
      fun s1 => (p.2, { s1 with heap := heapInc s1.heap p.2 }) := by
  rw [createF, hm]

theorem gcLoopF_nextId : ∀ (fuel acc : Nat) (s : St T) (n : Nat) (s' : St T),
    gcLoopF ch fuel acc s = some (n, s') → s'.nextId = s.nextId := by
  intro fuel
  induction fuel with
  | zero =>
    intro acc s n s' hd
    cases hq : s.toCollect with
    | nil =>
      rw [gcLoopF_empty hq] at hd
      cases hd
      rfl
    | cons i rest =>
      rw [gcLoopF_zero hq] at hd
      cases hd
  | succ fuel ih =>
    intro acc s n s' hd
    cases hq : s.toCollect with
    | nil =>
      rw [gcLoopF_empty hq] at hd
      cases hd
      rfl
    | cons i rest =>
      cases hfind : heapFind s.heap i with
      | none =>
        rw [gcLoopF_skip_dead hq hfind] at hd
        have h := ih _ _ _ _ hd
        exact h
      | some a =>
        by_cases hs : a.strong = 1
        · cases hm : mapFindKey s.map a.val with
          | none =>
            rw [gcLoopF, hq] at hd
            simp [hfind, hs, hm] at hd
          | some p =>
            rcases gcLoopF_remove_succ hq hfind hs hm hd with
              ⟨s3, s5, hd3, hd5, hrec⟩
            have h3 := (dropManyF_frame _ _ _ _ hd3).2
            have h5 := (dropManyF_frame _ _ _ _ hd5).2
            have h := ih _ _ _ _ hrec
            simp only at h3 h5
            rw [h, h5, h3]
        · rw [gcLoopF_skip_live hq hfind hs] at hd
          have h := ih _ _ _ _ hd
          exact h

end MoreLemmas

/-! ## Claim theorems (first batch) -/

/-- C6: interning `Add(Val(3), Val(4))` twice yields `len() == 3` after the
first build and still `3` after the structurally identical second build (the
two top-level handles carry the same identifier); dropping one of the two
top-level handles and collecting reports `0` and leaves `len() == 3`; dropping
the remaining handle and collecting reports `3` — the parent's removal
cascading to free its now-unreferenced children in the same pass, the
collector's temporary handle being released before the table's stored handle
so that the children are enqueued rather than the parent re-enqueued — and
reduces `len()` to `0`. -/
theorem cascade_scenario : cascadeTrace = some (true, 3, 3, 0, 3, 3, 0) := by
  rfl

/-- C3: dropping an owning handle never changes the canonical map, and — for a
handle whose allocation has at least the table's and this handle's ownership —
a weak handle with the same identifier is pushed onto the pending-collection
queue exactly when the shared-ownership count at drop time is `2` and the
context is not unwinding from a panic; in every other case nothing is
enqueued. -/
theorem drop_enqueues_at_two_only (ch : T → List Nat) (pan : Bool)
    (s : St T) (i fuel : Nat) (s' : St T)
    (hd : dropManyF ch pan fuel [i] s = some s') :
    s'.map = s.map ∧
    (2 ≤ strongCount s i →
      s'.toCollect = if strongCount s i = 2 ∧ pan = false
        then i :: s.toCollect else s.toCollect) := by
  refine ⟨(dropManyF_frame _ _ _ _ hd).1, fun h2 => ?_⟩
  rw [dropManyF_single h2 hd]

theorem drop_enqueues_at_two_only_witness :
    stOneDropped.map = stOne.map ∧
    (2 ≤ strongCount stOne 0 →
      stOneDropped.toCollect = if strongCount stOne 0 = 2 ∧ false = false
        then 0 :: stOne.toCollect else stOne.toCollect) :=
  drop_enqueues_at_two_only tch false stOne 0 5 stOneDropped (by decide)

/-- C7: equality of owning handles, and likewise of weak handles, holds
exactly when their identifiers are equal — the structural contents are never
consulted (the quantified `data` components are arbitrary) — and handles with
equal identifiers hash identically. -/
theorem handle_eq_hash_by_id :
    (∀ a b : HcRepr T, hcBeq a b = true ↔ a.id = b.id)
    ∧ (∀ a b : WeakRepr T, weakBeq a b = true ↔ a.id = b.id)
    ∧ (∀ a b : HcRepr T, a.id = b.id → hcHash a = hcHash b)
    ∧ (∀ a b : WeakRepr T, a.id = b.id → weakHash a = weakHash b) := by
  refine ⟨fun a b => ?_, fun a b => ?_, fun a b h => ?_, fun a b h => ?_⟩
  · simp [hcBeq]
  · simp [weakBeq]
  · simp [hcHash, h]
  · simp [weakHash, h]

theorem handle_eq_hash_by_id_witness :
    hcBeq (HcRepr.mk leaf1 5) (HcRepr.mk ({ op := Op.add, cs := [1, 2] } : TermInner) 5) = true
      ∧ hcHash (HcRepr.mk leaf1 5)
          = hcHash (HcRepr.mk ({ op := Op.add, cs := [1, 2] } : TermInner) 5) :=
  ⟨(handle_eq_hash_by_id.1 _ _).mpr rfl, handle_eq_hash_by_id.2.2.1 _ _ rfl⟩

/-- C8: `Weak::upgrade` returns a present owning handle exactly when the
entry's shared-ownership count is positive, the returned handle carries the
weak's identifier (so downgrade-then-upgrade round-trips to a handle equal by
identifier), and when the entry is gone the absent value is returned as an
ordinary outcome. -/
theorem weak_upgrade_iff_live (s : St T)
    (hpos : ∀ a ∈ s.heap, 1 ≤ a.strong) :
    (∀ w, (upgradeW s w).isSome ↔ 0 < strongCount s w)
    ∧ (∀ w j s2, upgradeW s w = some (j, s2) → j = w)
    ∧ (∀ i j s2, upgradeW s (downgradeHc i) = some (j, s2) → j = i)
    ∧ (∀ w, strongCount s w = 0 → upgradeW s w = none) := by
  have hiff : ∀ w, (upgradeW s w).isSome ↔ 0 < strongCount s w := by
    intro w
    cases hfind : heapFind s.heap w with
    | none => simp [upgradeW, hfind, strongCount, countIn]
    | some a =>
      have h1 := hpos a (heapFind_mem hfind)
      have hc : strongCount s w = a.strong := by
        simp [strongCount, countIn, hfind]
      rw [upgradeW, hfind, hc]
      simp only [Option.isSome_some, true_iff]
      omega
  have hsame : ∀ w j s2, upgradeW s w = some (j, s2) → j = w := by
    intro w j s2 hu
    cases hfind : heapFind s.heap w with
    | none => rw [upgradeW, hfind] at hu; cases hu
    | some a =>
      rw [upgradeW, hfind] at hu
      cases hu
      rfl
  refine ⟨hiff, hsame, fun i j s2 hu => hsame i j s2 hu, fun w hw => ?_⟩
  cases hfind : heapFind s.heap w with
  | none => rw [upgradeW, hfind]
  | some a =>
    have h1 := hpos a (heapFind_mem hfind)
    have hc : strongCount s w = a.strong := by
      simp [strongCount, countIn, hfind]
    rw [hc] at hw
    omega

theorem weak_upgrade_iff_live_witness :
    ((upgradeW stOne 0).isSome ↔ 0 < strongCount stOne 0)
      ∧ upgradeW stOne 7 = none :=
  ⟨(weak_upgrade_iff_live stOne (by decide)).1 0,
   (weak_upgrade_iff_live stOne (by decide)).2.2.2 7 (by decide)⟩

/-- C9: after `CacheOf::collect`, the cache contains exactly those key-value
pairs whose weak key still upgrades to a live owning handle: every pair with a
dead key is removed and every pair with a live key is retained unchanged. -/
theorem cache_collect_retains_live_only {V : Type} (s : St T)
    (m : List (Nat × V)) (kv : Nat × V) :
    kv ∈ collectCache s m ↔ kv ∈ m ∧ (upgradeW s kv.1).isSome := by
  simp [collectCache, List.mem_filter]

/-- C4: a weak popped from the pending-collection queue whose entry's current
shared-ownership count is anything other than table-only (`1`) — in particular
an entry resurrected by an intervening `create` or clone (count ≥ 2), or one
already gone (count 0) — is skipped: the canonical map is untouched and
nothing is counted; consequently a collect over a queue consisting entirely of
such entries reports zero collected and leaves the map, and hence `len()`,
unchanged. -/
theorem collect_skips_live_or_gone (ch : T → List Nat) (s : St T) :
    (∀ i rest fuel acc, s.toCollect = i :: rest → strongCount s i ≠ 1 →
      gcLoopF ch (fuel + 1) acc s
        = gcLoopF ch fuel acc { s with toCollect := rest })
    ∧ (∀ fuel, (∀ j ∈ s.toCollect, strongCount s j ≠ 1) →
        s.toCollect.length ≤ fuel →
        gcF ch fuel false s = some (0, { s with toCollect := [] })) := by
  constructor
  · intro i rest fuel acc hq hs
    cases hfind : heapFind s.heap i with
    | none => exact gcLoopF_skip_dead hq hfind fuel acc
    | some a =>
      have hne : a.strong ≠ 1 := by
        have hc : strongCount s i = a.strong := by
          simp [strongCount, countIn, hfind]
        rw [hc] at hs
        exact hs
      exact gcLoopF_skip_live hq hfind hne fuel acc
  · intro fuel hall hlen
    have h := @gcLoopF_skip_all T _ ch s.toCollect s fuel 0 rfl hall hlen
    simpa [gcF] using h

theorem collect_skips_live_or_gone_witness :
    gcF tch 5 false stRes = some (0, { stRes with toCollect := [] }) :=
  (collect_skips_live_or_gone tch stRes).2 5 (by decide) (by decide)

/-- C5: an entry whose only remaining owner at collection time is the table
itself (count `1`) is removed from the canonical map by the collect loop and
counted, `len()` decreasing by exactly one for it; and a completed `collect`
reports exactly the number of entries actually removed (which may be fewer
than the number of queue entries examined, because of skips). -/
theorem collect_removes_dead_and_reports_removed (ch : T → List Nat)
    (s : St T) :
    (∀ fuel n s', gcF ch fuel false s = some (n, s') → lenT s = lenT s' + n)
    ∧ (∀ i rest a p fuel acc n s', s.toCollect = i :: rest →
        heapFind s.heap i = some a → a.strong = 1 →
        mapFindKey s.map a.val = some p →
        gcLoopF ch (fuel + 1) acc s = some (n, s') →
        ∃ s5, gcLoopF ch fuel (acc + 1) s5 = some (n, s')
          ∧ s5.map = mapRemove s.map a.val ∧ lenT s5 + 1 = lenT s) := by
  constructor
  · intro fuel n s' hd
    have hd2 : gcLoopF ch fuel 0 s = some (n, s') := by
      simpa [gcF] using hd
    have h := gcLoopF_length _ _ _ _ _ hd2
    omega
  · intro i rest a p fuel acc n s' hq hfind hs hm hd
    rcases gcLoopF_remove_succ hq hfind hs hm hd with ⟨s3, s5, hd3, hd5, hrec⟩
    have h3 := (dropManyF_frame _ _ _ _ hd3).1
    have h5 := (dropManyF_frame _ _ _ _ hd5).1
    have hmap5 : s5.map = mapRemove s.map a.val := by
      rw [h5]
      exact h3
    have hlen : lenT s5 + 1 = lenT s := by
      rw [lenT, lenT, hmap5]
      exact length_mapRemove hm
    exact ⟨s5, hrec, hmap5, hlen⟩

theorem collect_removes_dead_and_reports_removed_witness :
    lenT stOneDropped
      = lenT ({ map := [], heap := [], toCollect := [], nextId := 1 } : St TermInner) + 1 :=
  (collect_removes_dead_and_reports_removed tch stOneDropped).1 9 1
    { map := [], heap := [], toCollect := [], nextId := 1 } (by decide)

section CreateLemmas

theorem countIn_cons_ne {a : Alloc T} {j : Nat} (h : List (Alloc T))
    (hne : a.id ≠ j) : countIn (a :: h) j = countIn h j := by
  rw [countIn, heapFind_cons, if_neg hne, countIn]

theorem countIn_cons_self {a : Alloc T} {j : Nat} (h : List (Alloc T))
    (hid : a.id = j) : countIn (a :: h) j = a.strong := by
  rw [countIn, heapFind_cons, if_pos hid]

theorem createF_vacant_overflow {ch : T → List Nat} {s : St T} {v : T}
    (fuel : Nat) (hm : mapFindKey s.map v = none)
    (hof : ¬s.nextId < 2 ^ 64) : createF ch fuel v s = none := by
  rw [createF, hm, allocate, if_neg hof]

/-- C1: two `create` requests for structurally equal values (here: a value `v`
not yet resident, requested twice, the caller holding the handles embedded in
`v`) return owning handles with identical identifiers, the table afterwards
holds exactly one resident entry for the value, and the entry's
shared-ownership count is 3: the two returned handles plus the table's stored
copy. -/
theorem create_hash_consing (ch : T → List Nat) (s : St T) (v : T)
    (fuel1 fuel2 i1 i2 : Nat) (s1 s2 : St T)
    (hfresh : mapFindKey s.map v = none)
    (hch : ∀ c ∈ ch v, (ch v).count c < strongCount s c ∧ c < s.nextId)
    (h1 : createF ch fuel1 v s = some (i1, s1))
    (h2 : createF ch fuel2 v s1 = some (i2, s2)) :
    i1 = i2 ∧ (keysOf s2.map).count v = 1 ∧ strongCount s2 i1 = 3 := by
  by_cases hof : s.nextId < 2 ^ 64
  case neg =>
    rw [createF_vacant_overflow fuel1 hfresh hof] at h1
    cases h1
  rw [createF_vacant fuel1 hfresh hof] at h1
  simp only [Option.some.injEq, Prod.mk.injEq] at h1
  obtain ⟨hi1, hs1⟩ := h1
  subst hi1
  subst hs1
  have hnotmem : s.nextId ∉ ch v := fun hmem =>
    absurd (hch _ hmem).2 (lt_irrefl _)
  have hpres : ∀ c ∈ ch v, c ∈ idsOf s.heap := by
    intro c hc
    have hlt := (hch c hc).1
    have hpos : 0 < countIn s.heap c := by
      rw [strongCount] at hlt
      omega
    have hsome : (heapFind s.heap c).isSome := by
      rw [countIn] at hpos
      cases hfind : heapFind s.heap c with
      | none => rw [hfind] at hpos; simp at hpos
      | some a => rfl
    exact heapFind_isSome_iff.mp hsome
  have hpres2 : ∀ c ∈ ch v,
      c ∈ idsOf ({ id := s.nextId, val := v, strong := 1 } :: s.heap) :=
    fun c hc => List.mem_cons_of_mem _ (hpres c hc)
  have hfind1 : heapFind
      (heapInc (incList ({ id := s.nextId, val := v, strong := 1 } :: s.heap)
        (ch v)) s.nextId) s.nextId
      = some { id := s.nextId, val := v, strong := 2 } := by
    have hinner : heapFind
        (incList ({ id := s.nextId, val := v, strong := 1 } :: s.heap) (ch v))
          s.nextId
        = some { id := s.nextId, val := v, strong := 1 } := by
      rw [heapFind_incList_not_mem _ hnotmem, heapFind_cons, if_pos rfl]
    rw [heapFind_heapInc_self, hinner]
    rfl
  have hm1 : mapFindKey ((v, s.nextId) :: s.map) v = some (v, s.nextId) := by
    rw [mapFindKey_cons, if_pos rfl]
  rw [createF_occupied fuel2 hm1] at h2
  rcases Option.map_eq_some'.mp h2 with ⟨s2', hdrop, heq⟩
  simp only [Prod.mk.injEq] at heq
  obtain ⟨hi2, hs2⟩ := heq
  subst hi2
  subst hs2
  have hcond : ∀ j ∈ ch v, (ch v).count j
      < countIn (heapInc (incList
          ({ id := s.nextId, val := v, strong := 1 } :: s.heap) (ch v))
          s.nextId) j := by
    intro j hj
    have hne : j ≠ s.nextId := Nat.ne_of_lt (hch j hj).2
    rw [countIn_heapInc_ne _ hne, countIn_incList hpres2,
      countIn_cons_ne _ (Ne.symm hne)]
    have hlt := (hch j hj).1
    rw [strongCount] at hlt
    omega
  rcases dropManyF_noFree _ _ _ _ hcond hdrop with ⟨hm2, _, hh2, _⟩
  refine ⟨rfl, ?_, ?_⟩
  · have hmap2 : s2'.map = (v, s.nextId) :: s.map := hm2
    simp only [hmap2, keysOf, List.map_cons, List.count_cons_self]
    have hzero : (s.map.map Prod.fst).count v = 0 := by
      rw [List.count_eq_zero]
      intro hmem
      rcases List.mem_map.mp hmem with ⟨p, hp, hpv⟩
      exact mapFindKey_eq_none.mp hfresh p hp hpv
    rw [← keysOf, keysOf, hzero]
  · have hfind2 : heapFind s2'.heap s.nextId
        = some { id := s.nextId, val := v, strong := 2 } := by
      rw [hh2]
      rw [heapFind_decList_not_mem _ hnotmem]
      exact hfind1
    have := countIn_heapInc_self hfind2
    rw [strongCount]
    simp only at this ⊢
    rw [this, countIn, hfind2]

end CreateLemmas

theorem create_hash_consing_witness :
    (0 : Nat) = 0
      ∧ (keysOf (St.mk [(leaf1, 0)] [⟨0, leaf1, 3⟩] [] 1 : St TermInner).map).count leaf1 = 1
      ∧ strongCount (St.mk [(leaf1, 0)] [⟨0, leaf1, 3⟩] [] 1 : St TermInner) 0 = 3 :=
  create_hash_consing tch emptySt leaf1 5 5 0 0
    (St.mk [(leaf1, 0)] [⟨0, leaf1, 2⟩] [] 1)
    (St.mk [(leaf1, 0)] [⟨0, leaf1, 3⟩] [] 1)
    (by decide) (by decide) (by decide) (by decide)

/-- C2 (allocator modelled from the spec, see `allocate`): a new entry
inserted by `create` receives the current counter value as its identifier and
bumps the counter, so the new identifier is strictly greater than every
identifier previously allocated by the table (in particular than every
resident identifier); an occupied `create`, a handle drop and a collect all
leave the counter unchanged, so an identifier is never reassigned or reused
even after its entry is collected; structurally distinct resident values have
distinct identifiers; and allocation fails exactly when the 64-bit identifier
space is exhausted. -/
theorem identifier_allocation (ch : T → List Nat) (s : St T) (v : T)
    (fuel : Nat) :
    (∀ next, allocate next = none ↔ 2 ^ 64 ≤ next)
    ∧ (∀ i s', mapFindKey s.map v = none → createF ch fuel v s = some (i, s') →
        i = s.nextId ∧ s'.nextId = s.nextId + 1
          ∧ ((∀ p ∈ s.map, p.2 < s.nextId) → ∀ p ∈ s.map, p.2 < i))
    ∧ (∀ p i s', mapFindKey s.map v = some p →
        createF ch fuel v s = some (i, s') → i = p.2 ∧ s'.nextId = s.nextId)
    ∧ (∀ pan ws s', dropManyF ch pan fuel ws s = some s' →
        s'.nextId = s.nextId)
    ∧ (∀ n s', gcF ch fuel false s = some (n, s') → s'.nextId = s.nextId)
    ∧ ((entryIdsOf s.map).Nodup →
        ∀ p ∈ s.map, ∀ q ∈ s.map, p.1 ≠ q.1 → p.2 ≠ q.2) := by
  refine ⟨?_, ?_, ?_, ?_, ?_, ?_⟩
  · intro next
    by_cases h : next < 2 ^ 64 <;> simp [allocate, h]
  · intro i s' hm hcr
    by_cases hof : s.nextId < 2 ^ 64
    · rw [createF_vacant fuel hm hof] at hcr
      simp only [Option.some.injEq, Prod.mk.injEq] at hcr
      obtain ⟨hi, hs⟩ := hcr
      subst hi
      subst hs
      exact ⟨rfl, rfl, fun hall p hp => hall p hp⟩
    · rw [createF_vacant_overflow fuel hm hof] at hcr
      cases hcr
  · intro p i s' hm hcr
    rw [createF_occupied fuel hm] at hcr
    rcases Option.map_eq_some'.mp hcr with ⟨s2', hdrop, heq⟩
    simp only [Prod.mk.injEq] at heq
    obtain ⟨hi, hs⟩ := heq
    subst hi
    subst hs
    exact ⟨rfl, (dropManyF_frame _ _ _ _ hdrop).2⟩
  · intro pan ws s' hdrop
    exact (dropManyF_frame _ _ _ _ hdrop).2
  · intro n s' hgc
    have hd2 : gcLoopF ch fuel 0 s = some (n, s') := by
      simpa [gcF] using hgc
    exact gcLoopF_nextId _ _ _ _ _ hd2
  · intro hnd p hp q hq hne hids
    exact hne (congrArg Prod.fst
      (List.inj_on_of_nodup_map hnd hp hq hids))

theorem identifier_allocation_witness :
    (allocate (2 ^ 64) = none ↔ 2 ^ 64 ≤ 2 ^ 64)
    ∧ (0 : Nat) = emptySt.nextId
    ∧ (St.mk [(leaf1, 0)] [⟨0, leaf1, 2⟩] [] 1 : St TermInner).nextId
        = emptySt.nextId + 1 :=
  ⟨(identifier_allocation tch emptySt leaf1 5).1 (2 ^ 64),
   ((identifier_allocation tch emptySt leaf1 5).2.1 0
      (St.mk [(leaf1, 0)] [⟨0, leaf1, 2⟩] [] 1) (by decide) (by decide)).1,
   ((identifier_allocation tch emptySt leaf1 5).2.1 0
      (St.mk [(leaf1, 0)] [⟨0, leaf1, 2⟩] [] 1) (by decide) (by decide)).2.1⟩

/-! ## Facts about `pairsOf`, `heapChSum` and `tableOwners` -/

section OwnerLemmas

variable {ch : T → List Nat}

theorem pairsOf_heapInc (h : List (Alloc T)) (i : Nat) :
    pairsOf (heapInc h i) = pairsOf h :=
  map_heapInc (fun a => (a.id, a.val)) (fun _ _ => rfl) h i

theorem pairsOf_heapDec (h : List (Alloc T)) (i : Nat) :
    pairsOf (heapDec h i) = pairsOf h :=
  map_heapDec (fun a => (a.id, a.val)) (fun _ _ => rfl) h i

theorem pairsOf_decList (h : List (Alloc T)) (ws : List Nat) :
    pairsOf (decList h ws) = pairsOf h :=
  map_decList (fun a => (a.id, a.val)) (fun _ _ => rfl) h ws

theorem pairsOf_incList (h : List (Alloc T)) (ws : List Nat) :
    pairsOf (incList h ws) = pairsOf h :=
  map_incList (fun a => (a.id, a.val)) (fun _ _ => rfl) h ws

theorem heapChSum_heapInc (h : List (Alloc T)) (i j : Nat) :
    heapChSum ch (heapInc h i) j = heapChSum ch h j := by
  rw [heapChSum, map_heapInc (fun a => (ch a.val).count j) (fun _ _ => rfl), heapChSum]

theorem heapChSum_heapDec (h : List (Alloc T)) (i j : Nat) :
    heapChSum ch (heapDec h i) j = heapChSum ch h j := by
  rw [heapChSum, map_heapDec (fun a => (ch a.val).count j) (fun _ _ => rfl), heapChSum]

theorem heapChSum_decList (h : List (Alloc T)) (ws : List Nat) (j : Nat) :
    heapChSum ch (decList h ws) j = heapChSum ch h j := by
  rw [heapChSum, map_decList (fun a => (ch a.val).count j) (fun _ _ => rfl), heapChSum]

theorem heapChSum_incList (h : List (Alloc T)) (ws : List Nat) (j : Nat) :
    heapChSum ch (incList h ws) j = heapChSum ch h j := by
  rw [heapChSum, map_incList (fun a => (ch a.val).count j) (fun _ _ => rfl), heapChSum]

theorem heapChSum_removeAlloc {h : List (Alloc T)} {i : Nat} {a : Alloc T}
    (hf : heapFind h i = some a) (j : Nat) :
    heapChSum ch (removeAlloc h i) j + (ch a.val).count j = heapChSum ch h j :=
  sum_removeAlloc _ hf

theorem countIn_removeAlloc_ne (h : List (Alloc T)) {i j : Nat} (hne : j ≠ i) :
    countIn (removeAlloc h i) j = countIn h j := by
  simp [countIn, heapFind_removeAlloc_ne h hne]

theorem mem_of_mem_pairsOf_removeAlloc {h : List (Alloc T)} {i : Nat}
    {q : Nat × T} (hq : q ∈ pairsOf (removeAlloc h i)) : q ∈ pairsOf h :=
  ((removeAlloc_sublist h i).map _).mem hq

theorem mem_pairsOf_removeAlloc_of_ne {h : List (Alloc T)} {i : Nat}
    {q : Nat × T} (hq : q ∈ pairsOf h) (hne : q.1 ≠ i) :
    q ∈ pairsOf (removeAlloc h i) := by
  induction h with
  | nil => cases hq
  | cons a h ih =>
    rcases List.mem_cons.mp hq with rfl | hq2
    · have hai : a.id ≠ i := hne
      rw [removeAlloc_cons, if_neg hai]
      exact List.mem_cons_self _ _
    · by_cases hai : a.id = i
      · rw [removeAlloc_cons, if_pos hai]
        exact hq2
      · rw [removeAlloc_cons, if_neg hai]
        exact List.mem_cons_of_mem _ (ih hq2)

theorem mem_idsOf_of_mem_removeAlloc {h : List (Alloc T)} {i j : Nat}
    (hj : j ∈ idsOf (removeAlloc h i)) : j ∈ idsOf h :=
  ((removeAlloc_sublist h i).map _).mem hj

theorem le_sum_of_mem {A : Type} {l : List A} {f : A → Nat} {x : A}
    (h : x ∈ l) : f x ≤ (l.map f).sum :=
  List.single_le_sum (fun _ _ => Nat.zero_le _) _ (List.mem_map_of_mem f h)

theorem tableOwners_congr {s s' : St T} (j : Nat) (hm : s'.map = s.map)
    (hh : heapChSum ch s'.heap j = heapChSum ch s.heap j) :
    tableOwners ch s' j = tableOwners ch s j := by
  rw [tableOwners, tableOwners, hm, hh]

theorem tableOwners_pos_of_live {s : St T}
    (h6 : ∀ q ∈ pairsOf s.heap, (q.2, q.1) ∈ s.map) {j : Nat}
    (hj : 0 < countIn s.heap j) : 1 ≤ tableOwners ch s j := by
  cases hfind : heapFind s.heap j with
  | none => rw [countIn, hfind] at hj; simp at hj
  | some a =>
    have hmemq : (a.id, a.val) ∈ pairsOf s.heap :=
      List.mem_map_of_mem _ (heapFind_mem hfind)
    have hentry := h6 _ hmemq
    have hid := heapFind_id hfind
    have hfl : (a.val, a.id) ∈ s.map.filter fun q => q.2 == j :=
      List.mem_filter.mpr ⟨hentry, by simp [hid]⟩
    have hf1 : 0 < (s.map.filter fun q => q.2 == j).length :=
      List.length_pos_of_mem hfl
    rw [tableOwners]
    omega

theorem live_lt_nextId {s : St T}
    (h9 : ∀ j ∈ idsOf s.heap, j < s.nextId) {j : Nat}
    (hj : 0 < countIn s.heap j) : j < s.nextId := by
  apply h9
  rw [← heapFind_isSome_iff]
  rw [countIn] at hj
  cases hfind : heapFind s.heap j with
  | none => rw [hfind] at hj; simp at hj
  | some a => rfl

end OwnerLemmas

/-! ## Preservation of the invariant -/

section Preservation

variable {ch : T → List Nat}

theorem tableInv_pop {s : St T} {i : Nat} {rest : List Nat}
    (hInv : TableInv ch s) (hq : s.toCollect = i :: rest) :
    TableInv ch { s with toCollect := rest } := by
  obtain ⟨h1, h2, h3, h4, h5, h6, h7, h8, h9, h10, h11⟩ := hInv
  refine ⟨h1, h2, h3, h4, h5, h6, h7, h8, h9, ?_, h11⟩
  intro j hj
  exact h10 j (by rw [hq]; exact List.mem_cons_of_mem i hj)

theorem tableInv_drop {pan : Bool} {fuel : Nat} {ws : List Nat} {s s' : St T}
    (hInv : TableInv ch s)
    (hold : ∀ j ∈ ws, ws.count j + tableOwners ch s j ≤ strongCount s j)
    (hd : dropManyF ch pan fuel ws s = some s') : TableInv ch s' := by
  obtain ⟨h1, h2, h3, h4, h5, h6, h7, h8, h9, h10, h11⟩ := hInv
  have hcond : ∀ j ∈ ws, ws.count j < countIn s.heap j := by
    intro j hj
    have hcnt : 0 < ws.count j := List.count_pos_iff.mpr hj
    have hhold := hold j hj
    have hjlive : 0 < countIn s.heap j := by
      rw [strongCount] at hhold
      omega
    have hto := @tableOwners_pos_of_live T _ ch _ h6 _ hjlive
    rw [strongCount] at hhold
    omega
  rcases dropManyF_noFree _ _ _ _ hcond hd with ⟨hmap, hnext, hheap, hqueue⟩
  have hids : idsOf s'.heap = idsOf s.heap := by rw [hheap, idsOf_decList]
  have hpairs : pairsOf s'.heap = pairsOf s.heap := by
    rw [hheap, pairsOf_decList]
  have hcnt' : ∀ j, countIn s'.heap j = countIn s.heap j - ws.count j := by
    intro j
    rw [hheap, countIn_decList]
  refine ⟨?_, ?_, ?_, ?_, ?_, ?_, ?_, ?_, ?_, ?_, ?_⟩
  · intro j hj
    rw [hids] at hj
    rw [hcnt']
    by_cases hjw : j ∈ ws
    · have hhold := hold j hjw
      have hjlive : 0 < countIn s.heap j := by
        have hc : 0 < ws.count j := List.count_pos_iff.mpr hjw
        rw [strongCount] at hhold
        omega
      have hto := @tableOwners_pos_of_live T _ ch _ h6 _ hjlive
      rw [strongCount] at hhold
      omega
    · rw [List.count_eq_zero.mpr hjw]
      have := h1 j hj
      omega
  · rw [hids]; exact h2
  · rw [hmap]; exact h3
  · rw [hmap]; exact h4
  · intro p hp
    rw [hmap] at hp
    rw [hpairs]
    exact h5 p hp
  · intro q hq
    rw [hpairs] at hq
    rw [hmap]
    exact h6 q hq
  · intro j hjlt
    rw [hnext] at hjlt
    have hTO : tableOwners ch s' j = tableOwners ch s j :=
      tableOwners_congr j hmap (by rw [hheap, heapChSum_decList])
    rw [hTO, strongCount, hcnt']
    by_cases hjw : j ∈ ws
    · have hhold := hold j hjw
      rw [strongCount] at hhold
      omega
    · rw [List.count_eq_zero.mpr hjw]
      have := h7 j hjlt
      rw [strongCount] at this
      omega
  · intro p hp
    rw [hmap] at hp
    rw [hnext]
    exact h8 p hp
  · intro j hj
    rw [hids] at hj
    rw [hnext]
    exact h9 j hj
  · intro x hx
    rw [hnext]
    rcases hqueue x hx with hx1 | hx2
    · have hhold := hold x hx1
      have hc : 0 < ws.count x := List.count_pos_iff.mpr hx1
      have hxlive : 0 < countIn s.heap x := by
        rw [strongCount] at hhold
        omega
      exact live_lt_nextId h9 hxlive
    · exact h10 x hx2
  · intro q hq
    rw [hpairs] at hq
    rw [hnext]
    exact h11 q hq

theorem tableInv_clone {s : St T} (hInv : TableInv ch s) (i : Nat) :
    TableInv ch (cloneHc s i) := by
  obtain ⟨h1, h2, h3, h4, h5, h6, h7, h8, h9, h10, h11⟩ := hInv
  have hids : idsOf (cloneHc s i).heap = idsOf s.heap := idsOf_heapInc _ _
  have hpairs : pairsOf (cloneHc s i).heap = pairsOf s.heap :=
    pairsOf_heapInc _ _
  have hcnt : ∀ j, countIn s.heap j ≤ countIn (cloneHc s i).heap j := by
    intro j
    by_cases hji : j = i
    · subst hji
      cases hfind : heapFind s.heap j with
      | none =>
        rw [cloneHc]
        simp only
        rw [heapInc_of_none hfind]
      | some a =>
        rw [cloneHc]
        simp only
        rw [countIn_heapInc_self hfind]
        omega
    · rw [cloneHc]
      simp only
      rw [countIn_heapInc_ne _ hji]
  refine ⟨?_, ?_, h3, h4, ?_, ?_, ?_, h8, ?_, h10, ?_⟩
  · intro j hj
    rw [hids] at hj
    exact le_trans (h1 j hj) (hcnt j)
  · rw [hids]; exact h2
  · intro p hp
    rw [hpairs]
    exact h5 p hp
  · intro q hq
    rw [hpairs] at hq
    exact h6 q hq
  · intro j hjlt
    have hTO : tableOwners ch (cloneHc s i) j = tableOwners ch s j :=
      tableOwners_congr j rfl (heapChSum_heapInc _ _ _)
    rw [hTO, strongCount]
    exact le_trans (h7 j hjlt) (hcnt j)
  · intro j hj
    rw [hids] at hj
    exact h9 j hj
  · intro q hq
    rw [hpairs] at hq
    exact h11 q hq

end Preservation

section CreatePreservation

variable {ch : T → List Nat}

theorem heapChSum_cons (a : Alloc T) (h : List (Alloc T)) (j : Nat) :
    heapChSum ch (a :: h) j = (ch a.val).count j + heapChSum ch h j := by
  rw [heapChSum, List.map_cons, List.sum_cons, heapChSum]

theorem tableOwners_eq_zero_of_ge {s : St T} {j : Nat}
    (h5 : ∀ p ∈ s.map, (p.2, p.1) ∈ pairsOf s.heap)
    (h8 : ∀ p ∈ s.map, p.2 < s.nextId)
    (h11 : ∀ q ∈ pairsOf s.heap, ∀ c ∈ ch q.2, c < s.nextId)
    (hge : s.nextId ≤ j) : tableOwners ch s j = 0 := by
  rw [tableOwners]
  have hfil : (s.map.filter fun p => p.2 == j) = [] := by
    rw [List.filter_eq_nil_iff]
    intro p hp
    simp only [beq_iff_eq]
    have := h8 p hp
    omega
  have hkey : (s.map.map fun p => (ch p.1).count j).sum = 0 := by
    rw [List.sum_eq_zero]
    intro x hx
    rcases List.mem_map.mp hx with ⟨p, hp, rfl⟩
    rw [List.count_eq_zero]
    intro hmem
    have hc := h11 (p.2, p.1) (h5 p hp) j hmem
    omega
  have hheap : heapChSum ch s.heap j = 0 := by
    rw [heapChSum, List.sum_eq_zero]
    intro x hx
    rcases List.mem_map.mp hx with ⟨a, ha, rfl⟩
    rw [List.count_eq_zero]
    intro hmem
    have hc := h11 (a.id, a.val) (List.mem_map_of_mem _ ha) j hmem
    omega
  rw [hfil, hkey, hheap]
  rfl

theorem tableInv_create {fuel : Nat} {v : T} {i : Nat} {s s' : St T}
    (hInv : TableInv ch s)
    (hold : ∀ j ∈ ch v, tableOwners ch s j + (ch v).count j ≤ strongCount s j)
    (hc : createF ch fuel v s = some (i, s')) : TableInv ch s' := by
  cases hm : mapFindKey s.map v with
  | some p =>
    rw [createF_occupied fuel hm] at hc
    rcases Option.map_eq_some'.mp hc with ⟨s2', hdrop, heq⟩
    simp only [Prod.mk.injEq] at heq
    obtain ⟨hi, hs⟩ := heq
    subst hs
    have hold' : ∀ j ∈ ch v,
        (ch v).count j + tableOwners ch s j ≤ strongCount s j := by
      intro j hj
      have := hold j hj
      omega
    exact tableInv_clone (tableInv_drop hInv hold' hdrop) p.2
  | none =>
    by_cases hof : s.nextId < 2 ^ 64
    case neg =>
      rw [createF_vacant_overflow fuel hm hof] at hc
      cases hc
    rw [createF_vacant fuel hm hof] at hc
    simp only [Option.some.injEq, Prod.mk.injEq] at hc
    obtain ⟨hi, hs⟩ := hc
    subst hs
    obtain ⟨h1, h2, h3, h4, h5, h6, h7, h8, h9, h10, h11⟩ := hInv
    have hchlt : ∀ c ∈ ch v, 0 < countIn s.heap c ∧ c < s.nextId := by
      intro c hc2
      have hcnt : 0 < (ch v).count c := List.count_pos_iff.mpr hc2
      have hh := hold c hc2
      have hlive : 0 < countIn s.heap c := by
        rw [strongCount] at hh
        omega
      exact ⟨hlive, live_lt_nextId h9 hlive⟩
    have hnotmem : s.nextId ∉ ch v := fun hmem =>
      absurd (hchlt _ hmem).2 (lt_irrefl _)
    have hpres2 : ∀ c ∈ ch v,
        c ∈ idsOf ({ id := s.nextId, val := v, strong := 1 } :: s.heap) := by
      intro c hc2
      apply List.mem_cons_of_mem
      show c ∈ idsOf s.heap
      rw [← heapFind_isSome_iff]
      have := (hchlt c hc2).1
      rw [countIn] at this
      cases hfind : heapFind s.heap c with
      | none => rw [hfind] at this; simp at this
      | some a => rfl
    have hfind_nid : heapFind
        (heapInc (incList ({ id := s.nextId, val := v, strong := 1 } :: s.heap)
          (ch v)) s.nextId) s.nextId
        = some { id := s.nextId, val := v, strong := 2 } := by
      have hinner : heapFind
          (incList ({ id := s.nextId, val := v, strong := 1 } :: s.heap) (ch v))
            s.nextId
          = some { id := s.nextId, val := v, strong := 1 } := by
        rw [heapFind_incList_not_mem _ hnotmem, heapFind_cons, if_pos rfl]
      rw [heapFind_heapInc_self, hinner]
      rfl
    have hcnt_nid : countIn
        (heapInc (incList ({ id := s.nextId, val := v, strong := 1 } :: s.heap)
          (ch v)) s.nextId) s.nextId = 2 := by
      rw [countIn, hfind_nid]
    have hcnt_ne : ∀ j, j ≠ s.nextId → countIn
        (heapInc (incList ({ id := s.nextId, val := v, strong := 1 } :: s.heap)
          (ch v)) s.nextId) j = countIn s.heap j + (ch v).count j := by
      intro j hj
      rw [countIn_heapInc_ne _ hj, countIn_incList hpres2,
        countIn_cons_ne _ (Ne.symm hj)]
    have hids' : idsOf
        (heapInc (incList ({ id := s.nextId, val := v, strong := 1 } :: s.heap)
          (ch v)) s.nextId) = s.nextId :: idsOf s.heap := by
      rw [idsOf_heapInc, idsOf_incList, idsOf, List.map_cons, ← idsOf]
    have hpairs' : pairsOf
        (heapInc (incList ({ id := s.nextId, val := v, strong := 1 } :: s.heap)
          (ch v)) s.nextId) = (s.nextId, v) :: pairsOf s.heap := by
      rw [pairsOf_heapInc, pairsOf_incList, pairsOf, List.map_cons, ← pairsOf]
    have hchsum' : ∀ j, heapChSum ch
        (heapInc (incList ({ id := s.nextId, val := v, strong := 1 } :: s.heap)
          (ch v)) s.nextId) j = (ch v).count j + heapChSum ch s.heap j := by
      intro j
      rw [heapChSum_heapInc, heapChSum_incList, heapChSum_cons]
    have hTOzero : tableOwners ch s s.nextId = 0 :=
      tableOwners_eq_zero_of_ge h5 h8 h11 (le_refl _)
    refine ⟨?_, ?_, ?_, ?_, ?_, ?_, ?_, ?_, ?_, ?_, ?_⟩
    · intro j hj
      simp only at hj ⊢
      rw [hids'] at hj
      rcases List.mem_cons.mp hj with rfl | hj2
      · rw [hcnt_nid]
        omega
      · have hjlt := h9 j hj2
        rw [hcnt_ne j (Nat.ne_of_lt hjlt)]
        have := h1 j hj2
        omega
    · simp only
      rw [hids']
      refine List.nodup_cons.mpr ⟨?_, h2⟩
      intro hmem
      exact absurd (h9 _ hmem) (lt_irrefl _)
    · simp only [keysOf, List.map_cons]
      refine List.nodup_cons.mpr ⟨?_, h3⟩
      intro hmem
      rcases List.mem_map.mp hmem with ⟨p, hp, hpv⟩
      exact mapFindKey_eq_none.mp hm p hp hpv
    · simp only [entryIdsOf, List.map_cons]
      refine List.nodup_cons.mpr ⟨?_, h4⟩
      intro hmem
      rcases List.mem_map.mp hmem with ⟨p, hp, hpv⟩
      exact absurd (hpv ▸ h8 p hp) (lt_irrefl _)
    · intro p hp
      simp only at hp ⊢
      rw [hpairs']
      rcases List.mem_cons.mp hp with rfl | hp2
      · exact List.mem_cons_self _ _
      · exact List.mem_cons_of_mem _ (h5 p hp2)
    · intro q hq
      simp only at hq ⊢
      rw [hpairs'] at hq
      rcases List.mem_cons.mp hq with rfl | hq2
      · exact List.mem_cons_self _ _
      · exact List.mem_cons_of_mem _ (h6 q hq2)
    · intro j hjlt
      simp only at hjlt ⊢
      have hTOnew : tableOwners ch
          { map := (v, s.nextId) :: s.map,
            heap := heapInc (incList
              ({ id := s.nextId, val := v, strong := 1 } :: s.heap) (ch v))
              s.nextId,
            toCollect := s.toCollect, nextId := s.nextId + 1 } j
          = (if s.nextId = j then 1 else 0) + (ch v).count j
              + ((ch v).count j + tableOwners ch s j) := by
      
        rw [tableOwners, tableOwners]
        simp only [List.filter_cons, List.map_cons, List.sum_cons]
        rw [hchsum']
        by_cases hnj : s.nextId = j
        · simp only [hnj, beq_self_eq_true, if_pos, List.length_cons]
          omega
        · have : (((v, s.nextId) : T × Nat).2 == j) = false := by
            simp [hnj]
          rw [this]
          simp only [if_neg hnj, Bool.false_eq_true, if_false]
          omega
      rw [hTOnew, strongCount]
      simp only
      by_cases hnj : s.nextId = j
      · subst hnj
        rw [if_pos rfl, hcnt_nid,
          List.count_eq_zero.mpr hnotmem, hTOzero]
        omega
      · rw [if_neg hnj, hcnt_ne j (fun hc2 => hnj hc2.symm)]
        by_cases hjv : j ∈ ch v
        · have := hold j hjv
          rw [strongCount] at this
          omega
        · rw [List.count_eq_zero.mpr hjv]
          have hjlt2 : j < s.nextId := by
            rcases Nat.lt_succ_iff_lt_or_eq.mp hjlt with h | h
            · exact h
            · exact absurd h.symm hnj
          have := h7 j hjlt2
          rw [strongCount] at this
          omega
    · intro p hp
      simp only at hp ⊢
      rcases List.mem_cons.mp hp with rfl | hp2
      · omega
      · have := h8 p hp2
        omega
    · intro j hj
      simp only at hj ⊢
      rw [hids'] at hj
      rcases List.mem_cons.mp hj with rfl | hj2
      · omega
      · have := h9 j hj2
        omega
    · intro j hj
      simp only at hj ⊢
      have := h10 j hj
      omega
    · intro q hq
      simp only at hq ⊢
      rw [hpairs'] at hq
      rcases List.mem_cons.mp hq with rfl | hq2
      · intro c hc2
        have := (hchlt c hc2).2
        omega
      · intro c hc2
        have := h11 q hq2 c hc2
        omega

end CreatePreservation

section GcPreservation

variable {ch : T → List Nat}

theorem filter_id_pos_of_live {s : St T}
    (h6 : ∀ q ∈ pairsOf s.heap, (q.2, q.1) ∈ s.map) {j : Nat}
    (hj : 0 < countIn s.heap j) :
    1 ≤ (s.map.filter fun q => q.2 == j).length := by
  cases hfind : heapFind s.heap j with
  | none => rw [countIn, hfind] at hj; simp at hj
  | some a =>
    have hmemq : (a.id, a.val) ∈ pairsOf s.heap :=
      List.mem_map_of_mem _ (heapFind_mem hfind)
    have hentry := h6 _ hmemq
    have hid := heapFind_id hfind
    have hfl : (a.val, a.id) ∈ s.map.filter fun q => q.2 == j :=
      List.mem_filter.mpr ⟨hentry, by simp [hid]⟩
    exact List.length_pos_of_mem hfl

theorem tableInv_gcRemove {s : St T} {i : Nat} {rest : List Nat} {a : Alloc T}
    {p : T × Nat} {fuel : Nat} {s3 s5 : St T}
    (hInv : TableInv ch s)
    (hq : s.toCollect = i :: rest)
    (hfind : heapFind s.heap i = some a) (hstr : a.strong = 1)
    (hm : mapFindKey s.map a.val = some p)
    (hd3 : dropManyF ch false fuel (ch a.val)
      { s with toCollect := rest, heap := heapInc s.heap i,
               map := mapRemove s.map a.val } = some s3)
    (hd5 : dropManyF ch false fuel [i] { s3 with heap := heapDec s3.heap i }
      = some s5) :
    TableInv ch s5 := by
  obtain ⟨h1, h2, h3, h4, h5, h6, h7, h8, h9, h10, h11⟩ := hInv
  have haid : a.id = i := heapFind_id hfind
  have hamem : a ∈ s.heap := heapFind_mem hfind
  have hapair : (i, a.val) ∈ pairsOf s.heap := by
    have hmm2 := List.mem_map_of_mem (fun b : Alloc T => (b.id, b.val)) hamem
    simp only at hmm2
    rw [haid] at hmm2
    exact hmm2
  have hentry : (a.val, i) ∈ s.map := h6 (i, a.val) hapair
  have hcs1 : countIn s.heap i = 1 := by
    simp [countIn, hfind, hstr]
  have hilt : i < s.nextId := live_lt_nextId h9 (by omega)
  have hchild : ∀ j ∈ ch a.val,
      1 + 2 * (ch a.val).count j ≤ countIn s.heap j ∧ j ≠ i := by
    intro j hj
    have hcnt : 0 < (ch a.val).count j := List.count_pos_iff.mpr hj
    have hkeyterm : (ch a.val).count j
        ≤ (s.map.map fun q => (ch q.1).count j).sum := by
      have hterm := le_sum_of_mem (f := fun q : T × Nat => (ch q.1).count j) hentry
      simpa using hterm
    have hheapterm : (ch a.val).count j ≤ heapChSum ch s.heap j := by
      have hterm := le_sum_of_mem (f := fun b : Alloc T => (ch b.val).count j) hamem
      simpa [heapChSum] using hterm
    have hjlt : j < s.nextId := h11 (i, a.val) hapair j hj
    have hTO := h7 j hjlt
    rw [strongCount] at hTO
    rw [tableOwners] at hTO
    have hlive : 0 < countIn s.heap j := by omega
    have hfil := filter_id_pos_of_live h6 hlive
    have hji : j ≠ i := by
      intro hc
      subst hc
      omega
    refine ⟨by omega, hji⟩
  have hinotws : i ∉ ch a.val := fun hmem => absurd rfl (hchild i hmem).2
  have hcond3 : ∀ j ∈ ch a.val,
      (ch a.val).count j < countIn (heapInc s.heap i) j := by
    intro j hj
    rcases hchild j hj with ⟨hb, hji⟩
    rw [countIn_heapInc_ne _ hji]
    omega
  rcases dropManyF_noFree _ _ _ _ hcond3 hd3 with
    ⟨h3map, h3next, h3heap, h3queue⟩
  simp only at h3map h3next h3heap h3queue
  have hids4 : idsOf (heapDec s3.heap i) = idsOf s.heap := by
    rw [idsOf_heapDec, h3heap, idsOf_decList, idsOf_heapInc]
  have hpairs4 : pairsOf (heapDec s3.heap i) = pairsOf s.heap := by
    rw [pairsOf_heapDec, h3heap, pairsOf_decList, pairsOf_heapInc]
  have hchs4 : ∀ j, heapChSum ch (heapDec s3.heap i) j
      = heapChSum ch s.heap j := by
    intro j
    rw [heapChSum_heapDec, h3heap, heapChSum_decList, heapChSum_heapInc]
  have hcnt4 : ∀ j, j ≠ i → countIn (heapDec s3.heap i) j
      = countIn s.heap j - (ch a.val).count j := by
    intro j hji
    rw [countIn_heapDec_ne _ hji, h3heap, countIn_decList,
      countIn_heapInc_ne _ hji]
  have hfind4 : heapFind (heapDec s3.heap i) i
      = some { id := a.id, val := a.val, strong := 1 } := by
    rw [heapFind_heapDec_self, h3heap, heapFind_decList_not_mem _ hinotws,
      heapFind_heapInc_self, hfind]
    simp [hstr]
  cases fuel with
  | zero => cases hd5
  | succ fuel =>
    rw [dropManyF_cons_free [] hfind4 rfl] at hd5
    simp only [List.append_nil] at hd5
    have hids4' : (idsOf (heapDec s3.heap i)).Nodup := by
      rw [hids4]
      exact h2
    have hfindrem : heapFind (removeAlloc (heapDec s3.heap i) i) i = none :=
      heapFind_removeAlloc_self i hids4'
    have hcond5 : ∀ j ∈ ch a.val, (ch a.val).count j
        < countIn (removeAlloc (heapDec s3.heap i) i) j := by
      intro j hj
      rcases hchild j hj with ⟨hb, hji⟩
      rw [countIn_removeAlloc_ne _ hji, hcnt4 j hji]
      omega
    rcases dropManyF_noFree _ _ _ _ hcond5 hd5 with
      ⟨h5map, h5next, h5heap, h5queue⟩
    simp only at h5map h5next h5heap h5queue
    have hmap5 : s5.map = mapRemove s.map a.val := by
      rw [h5map, h3map]
    have hnext5 : s5.nextId = s.nextId := by
      rw [h5next, h3next]
    have hfind5i : heapFind s5.heap i = none := by
      rw [h5heap, heapFind_decList_not_mem _ hinotws, hfindrem]
    have hpairs5sub : ∀ q, q ∈ pairsOf s5.heap →
        q ∈ pairsOf s.heap ∧ q.1 ≠ i := by
      intro q hq5
      rw [h5heap, pairsOf_decList] at hq5
      constructor
      · rw [← hpairs4]
        exact mem_of_mem_pairsOf_removeAlloc hq5
      · intro hc
        rcases List.mem_map.mp hq5 with ⟨b, hb, hbq⟩
        have hbid : b.id = i := by
          have hbq2 : (b.id, b.val) = q := hbq
          rw [← hc]
          exact congrArg Prod.fst hbq2
        have hmemids : b.id ∈ idsOf (removeAlloc (heapDec s3.heap i) i) :=
          List.mem_map_of_mem Alloc.id hb
        rw [hbid, ← heapFind_isSome_iff, hfindrem] at hmemids
        cases hmemids
    have hpairs5mem : ∀ q, q ∈ pairsOf s.heap → q.1 ≠ i →
        q ∈ pairsOf s5.heap := by
      intro q hq hqi
      rw [h5heap, pairsOf_decList]
      apply mem_pairsOf_removeAlloc_of_ne _ hqi
      rw [hpairs4]
      exact hq
    have hids5sub : ∀ j, j ∈ idsOf s5.heap → j ∈ idsOf s.heap ∧ j ≠ i := by
      intro j hj5
      rw [h5heap, idsOf_decList] at hj5
      refine ⟨by rw [← hids4]; exact mem_idsOf_of_mem_removeAlloc hj5, ?_⟩
      intro hc
      subst hc
      rw [← heapFind_isSome_iff, hfindrem] at hj5
      cases hj5
    have hcnt5 : ∀ j, j ≠ i → countIn s5.heap j
        = countIn s.heap j - 2 * (ch a.val).count j := by
      intro j hji
      rw [h5heap, countIn_decList, countIn_removeAlloc_ne _ hji, hcnt4 j hji]
      omega
    have hcnt5i : countIn s5.heap i = 0 := by
      rw [countIn, hfind5i]
    have hchs5 : ∀ j, heapChSum ch s5.heap j + (ch a.val).count j
        = heapChSum ch s.heap j := by
      intro j
      rw [h5heap, heapChSum_decList, ← hchs4 j]
      exact heapChSum_removeAlloc hfind4 j
    have hp_eq : p = (a.val, i) := by
      rcases mapFindKey_mem hm with ⟨hpmem, hpkey⟩
      exact List.inj_on_of_nodup_map h3 hpmem hentry (by rw [hpkey])
    subst hp_eq
    have hfilter5 : ∀ j, (s5.map.filter fun q => q.2 == j).length
        + (if i = j then 1 else 0)
        = (s.map.filter fun q => q.2 == j).length := by
      intro j
      have hfm := filterLength_mapRemove (fun q => q.2 == j) hm
      rw [hmap5]
      by_cases hij : i = j
      · subst hij
        simpa using hfm
      · simpa [hij] using hfm
    have hkeysum5 : ∀ j, (s5.map.map fun q => (ch q.1).count j).sum
        + (ch a.val).count j
        = (s.map.map fun q => (ch q.1).count j).sum := by
      intro j
      have hsm := sum_mapRemove (fun q : T × Nat => (ch q.1).count j) hm
      rw [hmap5]
      simpa using hsm
    have hmap5sub : ∀ q, q ∈ s5.map → q ∈ s.map := by
      intro q hq5
      rw [hmap5] at hq5
      exact (mapRemove_sublist s.map a.val).mem hq5
    have hmap5key : ∀ q ∈ s5.map, q.1 ≠ a.val := by
      intro q hq5
      rw [hmap5] at hq5
      exact key_ne_of_mem_mapRemove h3 q hq5
    have hmap5id : ∀ q ∈ s5.map, q.2 ≠ i := by
      intro q hq5 hc
      have hqmem := hmap5sub q hq5
      have heqq := List.inj_on_of_nodup_map h4 hqmem hentry (by rw [hc])
      exact hmap5key q hq5 (by rw [heqq])
    refine ⟨?_, ?_, ?_, ?_, ?_, ?_, ?_, ?_, ?_, ?_, ?_⟩
    · intro j hj
      rcases hids5sub j hj with ⟨hjs, hji⟩
      rw [hcnt5 j hji]
      have h1j := h1 j hjs
      by_cases hjv : j ∈ ch a.val
      · rcases hchild j hjv with ⟨hb, -⟩
        omega
      · rw [List.count_eq_zero.mpr hjv]
        omega
    · rw [h5heap, idsOf_decList]
      exact ((removeAlloc_sublist _ _).map _).nodup hids4'
    · rw [hmap5]
      exact ((mapRemove_sublist _ _).map _).nodup h3
    · rw [hmap5]
      exact ((mapRemove_sublist _ _).map _).nodup h4
    · intro q hq5
      exact hpairs5mem _ (h5 q (hmap5sub q hq5)) (hmap5id q hq5)
    · intro q hq5
      rcases hpairs5sub q hq5 with ⟨hqs, hqi⟩
      have hqmem := h6 q hqs
      rw [hmap5]
      refine mem_mapRemove_of_key_ne hqmem ?_
      intro hc
      simp only at hc
      have heqq := List.inj_on_of_nodup_map h3 hqmem hentry (by simpa using hc)
      exact hqi (congrArg Prod.snd heqq)
    · intro j hjlt
      rw [hnext5] at hjlt
      have hTO := h7 j hjlt
      rw [strongCount] at hTO ⊢
      rw [tableOwners] at hTO ⊢
      have hf5 := hfilter5 j
      have hk5 := hkeysum5 j
      have hc5 := hchs5 j
      by_cases hji : j = i
      · subst hji
        rw [hcnt5i]
        have hfl : (a.val, j) ∈ s.map.filter fun q => q.2 == j :=
          List.mem_filter.mpr ⟨hentry, by simp⟩
        have hfpos : 1 ≤ (s.map.filter fun q => q.2 == j).length :=
          List.length_pos_of_mem hfl
        have hz : (ch a.val).count j = 0 := List.count_eq_zero.mpr hinotws
        rw [if_pos rfl] at hf5
        omega
      · rw [if_neg (fun hc => hji hc.symm)] at hf5
        rw [hcnt5 j hji]
        by_cases hjv : j ∈ ch a.val
        · rcases hchild j hjv with ⟨hb, -⟩
          omega
        · have hz : (ch a.val).count j = 0 := List.count_eq_zero.mpr hjv
          omega
    · intro q hq5
      rw [hnext5]
      exact h8 q (hmap5sub q hq5)
    · intro j hj
      rw [hnext5]
      exact h9 j (hids5sub j hj).1
    · intro x hx
      rw [hnext5]
      rcases h5queue x hx with hx1 | hx2
      · exact h11 (i, a.val) hapair x hx1
      · rcases h3queue x hx2 with hx3 | hx4
        · exact h11 (i, a.val) hapair x hx3
        · exact h10 x (by rw [hq]; exact List.mem_cons_of_mem i hx4)
    · intro q hq5
      rw [hnext5]
      exact h11 q (hpairs5sub q hq5).1

end GcPreservation

section InvariantTheorem

variable {ch : T → List Nat}

theorem tableInv_gcLoop : ∀ (fuel acc : Nat) (s : St T) (n : Nat) (s' : St T),
    TableInv ch s → gcLoopF ch fuel acc s = some (n, s') → TableInv ch s' := by
  intro fuel
  induction fuel with
  | zero =>
    intro acc s n s' hInv hd
    cases hq : s.toCollect with
    | nil =>
      rw [gcLoopF_empty hq] at hd
      cases hd
      exact hInv
    | cons i rest =>
      rw [gcLoopF_zero hq] at hd
      cases hd
  | succ fuel ih =>
    intro acc s n s' hInv hd
    cases hq : s.toCollect with
    | nil =>
      rw [gcLoopF_empty hq] at hd
      cases hd
      exact hInv
    | cons i rest =>
      cases hfind : heapFind s.heap i with
      | none =>
        rw [gcLoopF_skip_dead hq hfind] at hd
        exact ih _ _ _ _ (tableInv_pop hInv hq) hd
      | some a =>
        by_cases hs : a.strong = 1
        · cases hm : mapFindKey s.map a.val with
          | none =>
            rw [gcLoopF, hq] at hd
            simp [hfind, hs, hm] at hd
          | some p =>
            rcases gcLoopF_remove_succ hq hfind hs hm hd with
              ⟨s3, s5, hd3, hd5, hrec⟩
            exact ih _ _ _ _
              (tableInv_gcRemove hInv hq hfind hs hm hd3 hd5) hrec
        · rw [gcLoopF_skip_live hq hfind hs] at hd
          exact ih _ _ _ _ (tableInv_pop hInv hq) hd

end InvariantTheorem

/-- C10: every public operation preserves the residency invariant `TableInv`:
`create` (when the caller genuinely holds the handles embedded in the
requested value), handle clone, the drop of a client-held handle, and
`collect`.  Under the invariant a value is resident in the canonical map
exactly when its shared-ownership count is positive, and while resident the
table's stored handle keeps that count at least one; consequently a weak
handle's upgrade succeeds exactly when its entry is resident, and a weak left
in the pending queue after its entry was removed (e.g. a duplicate enqueue) is
harmlessly skipped by the collect loop rather than causing a second
removal. -/
theorem residency_invariant (ch : T → List Nat) (s : St T)
    (hInv : TableInv ch s) :
    (∀ fuel v i s',
        (∀ j ∈ ch v, tableOwners ch s j + (ch v).count j ≤ strongCount s j) →
        createF ch fuel v s = some (i, s') → TableInv ch s')
    ∧ (∀ i, TableInv ch (cloneHc s i))
    ∧ (∀ fuel pan i s', tableOwners ch s i < strongCount s i →
        dropManyF ch pan fuel [i] s = some s' → TableInv ch s')
    ∧ (∀ fuel n s', gcF ch fuel false s = some (n, s') → TableInv ch s')
    ∧ (∀ i, 0 < strongCount s i ↔ ∃ p ∈ s.map, p.2 = i)
    ∧ (∀ p ∈ s.map, 1 ≤ strongCount s p.2)
    ∧ (∀ w, (upgradeW s w).isSome ↔ ∃ p ∈ s.map, p.2 = w)
    ∧ (∀ i rest fuel acc, s.toCollect = i :: rest → strongCount s i = 0 →
        gcLoopF ch (fuel + 1) acc s
          = gcLoopF ch fuel acc { s with toCollect := rest }) := by
  obtain ⟨h1, h2, h3, h4, h5, h6, h7, h8, h9, h10, h11⟩ := hInv
  have hInv' : TableInv ch s :=
    ⟨h1, h2, h3, h4, h5, h6, h7, h8, h9, h10, h11⟩
  have hlive_iff : ∀ i, 0 < strongCount s i ↔ ∃ p ∈ s.map, p.2 = i := by
    intro i
    constructor
    · intro hpos
      rw [strongCount, countIn] at hpos
      cases hfind : heapFind s.heap i with
      | none => rw [hfind] at hpos; simp at hpos
      | some a =>
        have hmm2 := List.mem_map_of_mem
          (fun b : Alloc T => (b.id, b.val)) (heapFind_mem hfind)
        simp only at hmm2
        have hentry := h6 _ hmm2
        exact ⟨(a.val, a.id), hentry, heapFind_id hfind⟩
    · rintro ⟨p, hp, hpi⟩
      have hpair := h5 p hp
      rcases List.mem_map.mp hpair with ⟨b, hb, hbq⟩
      have hbq2 : (b.id, b.val) = (p.2, p.1) := hbq
      have hbid : b.id = p.2 := congrArg Prod.fst hbq2
      have hfindb : heapFind s.heap b.id = some b := heapFind_of_mem_nodup h2 hb
      have hcnt : countIn s.heap b.id = b.strong := by
        rw [countIn, hfindb]
      have hpos := h1 b.id (List.mem_map_of_mem Alloc.id hb)
      rw [strongCount, ← hpi, ← hbid, hcnt]
      omega
  refine ⟨?_, ?_, ?_, ?_, hlive_iff, ?_, ?_, ?_⟩
  · intro fuel v i s' hold hc
    exact tableInv_create hInv' hold hc
  · intro i
    exact tableInv_clone hInv' i
  · intro fuel pan i s' hheld hd
    refine tableInv_drop hInv' ?_ hd
    intro j hj
    have hji : j = i := List.mem_singleton.mp hj
    subst hji
    have hc1 : List.count j [j] = 1 := by simp
    omega
  · intro fuel n s' hgc
    have hd2 : gcLoopF ch fuel 0 s = some (n, s') := by
      simpa [gcF] using hgc
    exact tableInv_gcLoop _ _ _ _ _ hInv' hd2
  · intro p hp
    have := (hlive_iff p.2).mpr ⟨p, hp, rfl⟩
    omega
  · intro w
    rw [← hlive_iff w]
    constructor
    · intro hu
      rw [upgradeW] at hu
      cases hfind : heapFind s.heap w with
      | none => rw [hfind] at hu; cases hu
      | some a =>
        have hwmem : w ∈ idsOf s.heap := by
          rw [← heapFind_isSome_iff, hfind]
          rfl
        have := h1 w hwmem
        rw [strongCount]
        omega
    · intro hpos
      rw [upgradeW]
      rw [strongCount, countIn] at hpos
      cases hfind : heapFind s.heap w with
      | none => rw [hfind] at hpos; simp at hpos
      | some a => rfl
  · intro i rest fuel acc hq hzero
    have hfind : heapFind s.heap i = none := by
      cases hfind : heapFind s.heap i with
      | none => rfl
      | some a =>
        have hmem : i ∈ idsOf s.heap := by
          rw [← heapFind_isSome_iff, hfind]
          rfl
        have hge := h1 i hmem
        rw [strongCount] at hzero
        omega
    exact gcLoopF_skip_dead hq hfind fuel acc

theorem residency_invariant_witness : TableInv tch (cloneHc stOne 0) :=
  (residency_invariant tch stOne (by decide)).2.1 0

end Yahc
